import Mathlib

/-! Adaptive Haario sampler (`src/adaptive-mcmc.cpp`).

A shallow embedding of `adaptive_haario` and the verification of its specification.

Modelling conventions.

* `double` values are exact rationals (`ℚ`); the value of `log` may also be `-∞`
  (`⊥ : WithBot ℚ`).  The general theorems are about this exact model.  Where rounding
  decides a claim, the same lines are embedded a second time with every operation
  rounded to binary64 (the definitions ending in `_fl`).  Overflow and NaN are outside
  both models.
* `int` values (`n`, `iter`, `i`) are natural numbers; the one place where the source
  forms a possibly negative value, `i - 1`, is computed in `Int`.  The product `2 * n`
  stays below `2^31`: an `n × n` matrix of doubles with `n ≥ 2^30` cannot be allocated.
* An Armadillo matrix is its row count together with the list of its columns
  (column-major, as Armadillo stores it).
* C++ exceptions are the `Except.error` results of the `Except Error` monad.
* The collaborators whose code is not in the repository sources (Cholesky factorisation,
  the Gaussian log-density `dmvnorm_chol` of `pdf.h`, `log`, the random number
  generator, the contents of freshly allocated memory) are the fields of `Env`.
  Every theorem holds for all of them; what a theorem needs to know about them is an
  explicit hypothesis.
-/

namespace AdaptiveMcmc

/-! ## Vectors and matrices -/

/-- An `arma::vec`: the list of its elements. -/
abbrev Vec := List ℚ

/-- An `arma::mat`: the number of rows and the list of columns. -/
structure Mat where
  n_rows : Nat
  cols : List Vec
deriving DecidableEq

/-- The exceptions Armadillo raises: `std::logic_error` for an index out of bounds or
incompatible dimensions, `std::runtime_error` for a failed decomposition. -/
inductive Error where
  | logic_error
  | runtime_error
deriving DecidableEq

/-- The number of columns of a matrix. -/
def Mat.n_cols (A : Mat) : Nat := A.cols.length

/-- Every stored column has `n_rows` elements. -/
def Mat.WellFormed (A : Mat) : Prop := ∀ c ∈ A.cols, c.length = A.n_rows

/-- The element in row `r` and column `c`. -/
def Mat.entry (A : Mat) (r c : Nat) : ℚ := (A.cols.getD c []).getD r 0

/-- Row `r` of a matrix. -/
def Mat.row (A : Mat) (r : Nat) : Vec := A.cols.map (fun c => c.getD r 0)

/-- The transpose `A.t()`: its columns are the rows of `A`. -/
def Mat.t (A : Mat) : Mat := ⟨A.n_cols, (List.range A.n_rows).map A.row⟩

/-- The identity `arma::eye<arma::mat>(n,n)`. -/
def eye (n : Nat) : Mat :=
  ⟨n, (List.range n).map fun c => (List.range n).map fun r => if r = c then 1 else 0⟩

/-- The product `k * A` of a scalar and a matrix. -/
def Mat.smul (k : ℚ) (A : Mat) : Mat := ⟨A.n_rows, A.cols.map fun c => c.map fun x => k * x⟩

/-- The quotient `A / k` of a matrix by a scalar. -/
def Mat.sdiv (A : Mat) (k : ℚ) : Mat := ⟨A.n_rows, A.cols.map fun c => c.map fun x => x / k⟩

/-- The quotient `v / k` of a vector by a scalar. -/
def vec_sdiv (v : Vec) (k : ℚ) : Vec := v.map fun x => x / k

/-- The sum `a + b` of two vectors; Armadillo raises a logic error when the lengths
differ. -/
def vec_add (a b : Vec) : Except Error Vec :=
  if a.length = b.length then .ok (List.zipWith (fun x y => x + y) a b) else .error .logic_error

/-- The product `A * z` of a matrix and a vector; Armadillo raises a logic error when
the number of columns of `A` is not the length of `z`. -/
def mat_vec (A : Mat) (z : Vec) : Except Error Vec :=
  if A.n_cols = z.length then
    .ok ((List.range A.n_rows).map fun r =>
      (List.zipWith (fun (c : Vec) (x : ℚ) => c.getD r 0 * x) A.cols z).sum)
  else .error .logic_error

/-- The block `A.cols(first, last)`.  The arguments are converted to unsigned integers,
so a negative one becomes a huge index; Armadillo raises a logic error when
`first > last` or `last >= n_cols`. -/
def Mat.cols_range (A : Mat) (first last : Int) : Except Error Mat :=
  if 0 ≤ first ∧ first ≤ last ∧ last < (A.n_cols : Int) then
    .ok ⟨A.n_rows, (A.cols.take (last.toNat + 1)).drop first.toNat⟩
  else .error .logic_error

/-- The assignment `A.col(i) = v`; Armadillo raises a logic error when `i >= n_cols`
or when `v` does not have `n_rows` elements. -/
def Mat.set_col (A : Mat) (i : Nat) (v : Vec) : Except Error Mat :=
  if i < A.n_cols ∧ v.length = A.n_rows then .ok ⟨A.n_rows, A.cols.set i v⟩
  else .error .logic_error

/-- The deviations of the `N` observations of one variable from their mean. -/
def center (N : Nat) (v : Vec) : Vec := v.map fun x => x - v.sum / (N : ℚ)

/-- The inner product of two vectors. -/
def dot (a b : Vec) : ℚ := (List.zipWith (fun x y => x * y) a b).sum

/-- The sample covariance `arma::cov(X)` of Armadillo: the rows of `X` are the
observations, the columns the variables, and the normalisation is by `N - 1`
(by `1` when there is a single observation).  Armadillo reads a matrix of one row as
a single variable; the sampler calls `cov` on at least two rows. -/
def cov (X : Mat) : Mat :=
  let norm_val : ℚ := if 1 < X.n_rows then (X.n_rows : ℚ) - 1 else 1
  ⟨X.n_cols, X.cols.map fun cb => X.cols.map fun ca =>
    dot (center X.n_rows ca) (center X.n_rows cb) / norm_val⟩

/-! ## The collaborators -/

/-- The collaborators of the sampler, over a random-generator state `σ`. -/
structure Env (σ : Type) where
  /-- The lower Cholesky factor computed by `arma::chol(·, "lower")` on a square matrix,
  `none` when the decomposition fails. -/
  chol : Mat → Option Mat
  /-- The call `dmvnorm_chol(x, mean, chol, true)` of `pdf.h`: the log-density at `x`. -/
  dmvnorm_chol : Vec → Vec → Mat → ℚ
  /-- The C function `log`; `⊥` is `-∞`. -/
  log : ℚ → WithBot ℚ
  /-- One draw of `R::runif(0,1)` and the generator state after it. -/
  runif : σ → ℚ × σ
  /-- One standard-normal draw and the generator state after it. -/
  randn : σ → ℚ × σ
  /-- The content at `(row, column)` of the memory that `arma::mat(n, iter)` allocates. -/
  uninit : Nat → Nat → ℚ

/-- The call `arma::randn<arma::vec>(k)`: `k` successive standard-normal draws. -/
def randn_vec {σ : Type} (env : Env σ) : Nat → σ → Vec × σ
  | 0, s => ([], s)
  | k + 1, s => ((env.randn s).1 :: (randn_vec env k (env.randn s).2).1,
                 (randn_vec env k (env.randn s).2).2)

/-- The form `arma::chol(A, "lower")` returning the factor (line 34): a logic error for
a matrix that is not square, a runtime error when the decomposition fails. -/
def chol_or_throw {σ : Type} (env : Env σ) (A : Mat) : Except Error Mat :=
  if A.n_rows = A.n_cols then
    match env.chol A with
    | some L => .ok L
    | none => .error .runtime_error
  else .error .logic_error

/-- The form `bool ok = arma::chol(L, A, "lower")` (line 60): a logic error for a matrix
that is not square; a failed decomposition is reported as `none` (`false`), not raised. -/
def chol_status {σ : Type} (env : Env σ) (A : Mat) : Except Error (Option Mat) :=
  if A.n_rows = A.n_cols then .ok (env.chol A) else .error .logic_error

/-- The matrix `arma::mat params_mat(n, iter)` as allocated (line 38). -/
def alloc {σ : Type} (env : Env σ) (n iter : Nat) : Mat :=
  ⟨n, (List.range iter).map fun c => (List.range n).map fun r => env.uninit r c⟩

/-! ## The sampler -/

/-- The variables that live across the iterations of the loop, and the generator. -/
structure State (σ : Type) where
  params : Vec
  params_mat : Mat
  rng : σ

/-- The fixed proposal covariance `pow(0.1, 2) * arma::eye<arma::mat>(n,n) / n`
(line 49). -/
def fixed_proposal (n : Nat) : Mat := (Mat.smul ((1 / 10 : ℚ) ^ 2) (eye n)).sdiv (n : ℚ)

/-- The adapted proposal covariance `pow(2.38, 2) * arma::cov(block.t()) / n`
(lines 46-47), for the history block `block`. -/
def adapted_proposal (n : Nat) (block : Mat) : Mat :=
  (Mat.smul ((238 / 100 : ℚ) ^ 2) (cov block.t)).sdiv (n : ℚ)

/-- Lines 44-50: the proposal covariance of iteration `i` and the generator state after
its selection.  The uniform draw is made only when `i >= 2 * n` (the `&&` of the source
does not evaluate its right operand otherwise). -/
def select_proposal {σ : Type} (env : Env σ) (n i : Nat) (st : State σ) :
    Except Error (Mat × σ) :=
  if 2 * n ≤ i then
    if (env.runif st.rng).1 < 95 / 100 then
      match st.params_mat.cols_range 0 ((i : Int) - 1) with
      | .ok block => .ok (adapted_proposal n block, (env.runif st.rng).2)
      | .error e => .error e
    else .ok (fixed_proposal n, (env.runif st.rng).2)
  else .ok (fixed_proposal n, st.rng)

/-- The candidate `params + Sigma_proposal_chol * z` (line 62). -/
def candidate (params : Vec) (L : Mat) (z : Vec) : Except Error Vec :=
  match mat_vec L z with
  | .ok step => vec_add params step
  | .error e => .error e

/-- The value `accept` of lines 64-65. -/
def accept {σ : Type} (env : Env σ) (mean : Vec) (Sigma_chol : Mat)
    (params_aux params : Vec) : ℚ :=
  env.dmvnorm_chol params_aux mean Sigma_chol - env.dmvnorm_chol params mean Sigma_chol

/-- Lines 61-71: the state `params` and the generator after the proposal and acceptance
step, given the outcome `r` of the factorisation of the proposal covariance. -/
def propose_accept {σ : Type} (env : Env σ) (mean : Vec) (Sigma_chol : Mat) (n : Nat)
    (params : Vec) (r : Option Mat) (rng : σ) : Except Error (Vec × σ) :=
  match r with
  | some L =>
    match candidate params L (randn_vec env n rng).1 with
    | .ok params_aux =>
      if env.log (env.runif (randn_vec env n rng).2).1
          < (accept env mean Sigma_chol params_aux params : WithBot ℚ) then
        .ok (params_aux, (env.runif (randn_vec env n rng).2).2)
      else .ok (params, (env.runif (randn_vec env n rng).2).2)
    | .error e => .error e
  | none => .ok (params, rng)

/-- Lines 42-73: the body of the loop at index `i`. -/
def iteration {σ : Type} (env : Env σ) (mean : Vec) (Sigma_chol : Mat) (n i : Nat)
    (st : State σ) : Except Error (State σ) :=
  match select_proposal env n i st with
  | .error e => .error e
  | .ok (Sigma_proposal, rng1) =>
    match chol_status env Sigma_proposal with
    | .error e => .error e
    | .ok r =>
      match propose_accept env mean Sigma_chol n st.params r rng1 with
      | .error e => .error e
      | .ok (params, rng2) =>
        match st.params_mat.set_col i params with
        | .error e => .error e
        | .ok pm => .ok ⟨params, pm, rng2⟩

/-- The loop `for (int i = 0; i < iter; ++i)` after its first `k` iterations, which
run the body at the indices `0, 1, ..., k - 1` in this order. -/
def iterations {σ : Type} (env : Env σ) (mean : Vec) (Sigma_chol : Mat) (n : Nat)
    (st0 : State σ) : Nat → Except Error (State σ)
  | 0 => .ok st0
  | k + 1 =>
    match iterations env mean Sigma_chol n st0 k with
    | .ok st => iteration env mean Sigma_chol n k st
    | .error e => .error e

/-- The state on entry to the loop (lines 37-38). -/
def initial_state {σ : Type} (env : Env σ) (mean : Vec) (iter : Nat) (rng : σ) : State σ :=
  ⟨vec_sdiv mean 3, alloc env mean.length iter, rng⟩

/-- The returned `Rcpp::List`: its single element `params`. -/
structure Output where
  params : Mat
deriving DecidableEq

/-- The function `adaptive_haario(mean, Sigma, iter)` run from the generator state
`rng`. -/
def adaptive_haario {σ : Type} (env : Env σ) (mean : Vec) (Sigma : Mat) (iter : Nat)
    (rng : σ) : Except Error Output :=
  match chol_or_throw env Sigma with
  | .error e => .error e
  | .ok Sigma_chol =>
    match iterations env mean Sigma_chol mean.length
        (initial_state env mean iter rng) iter with
    | .error e => .error e
    | .ok st => .ok ⟨st.params_mat.t⟩


/-! ## An exact rational instance of the collaborators -/

/-- A rational square root: the exact root of a rational whose numerator and denominator
are perfect squares, rounded down on both otherwise. -/
def qsqrt (q : ℚ) : ℚ := (Nat.sqrt q.num.toNat : ℚ) / (Nat.sqrt q.den : ℚ)

/-- Column `j` of the lower Cholesky factor of `A` from the columns `prev` to its left,
`none` when the pivot is not positive. -/
def chol_column (A : Mat) (prev : List Vec) (j : Nat) : Option Vec :=
  if 0 < A.entry j j - (prev.map fun c => c.getD j 0 ^ 2).sum then
    some ((List.range A.n_rows).map fun r =>
      if r < j then 0
      else if r = j then qsqrt (A.entry j j - (prev.map fun c => c.getD j 0 ^ 2).sum)
      else (A.entry r j - (prev.map fun c => c.getD r 0 * c.getD j 0).sum)
            / qsqrt (A.entry j j - (prev.map fun c => c.getD j 0 ^ 2).sum))
  else none

/-- The first `k` columns of the lower Cholesky factor of `A`. -/
def chol_columns (A : Mat) : Nat → Option (List Vec)
  | 0 => some []
  | j + 1 =>
    match chol_columns A j with
    | some prev =>
      match chol_column A prev j with
      | some c => some (prev ++ [c])
      | none => none
    | none => none

/-- Cholesky factorisation in rational arithmetic, with `qsqrt` for the square root. -/
def rat_chol (A : Mat) : Option Mat :=
  match chol_columns A A.n_rows with
  | some cs => some ⟨A.n_rows, cs⟩
  | none => none

/-- The first `k` elements of the solution `y` of `L * y = b` by forward substitution. -/
def forward_solve (L : Mat) (b : Vec) : Nat → Vec
  | 0 => []
  | k + 1 =>
    forward_solve L b k ++
      [(b.getD k 0 - ((List.range k).map fun c =>
          L.entry k c * (forward_solve L b k).getD c 0).sum) / L.entry k k]

/-- Modelled from the spec: `dmvnorm_chol` of `pdf.h`, "the log-density of
`Normal(mean, chol_lower·chol_lowerᵗ)` at `x`", here without its additive normalising
constant `-(n/2) log(2π) - Σ log L_jj`, which is not rational: minus half the squared
length of the solution of `L * y = x - mean`.  The constant depends on `L` only, so it
cancels in the difference of lines 64-65, the only use the sampler makes of the
density. -/
def log_kernel (x mean : Vec) (L : Mat) : ℚ :=
  -(1 / 2) * ((forward_solve L (List.zipWith (fun a m => a - m) x mean) L.n_rows).map
    fun y => y ^ 2).sum

/-- A rational stand-in for `log`: `-∞` at arguments `≤ 0`, and `1 - 1/u` otherwise,
which is the exact value `0` at `u = 1` and a lower bound of `log u` elsewhere. -/
def rat_log (u : ℚ) : WithBot ℚ := if u ≤ 0 then ⊥ else ((1 - 1 / u : ℚ) : WithBot ℚ)

/-- The collaborators in rational arithmetic, with the random draws read off a tape:
each uniform or normal draw consumes the next number of the tape (`0` once it is
exhausted); fresh memory is zero-filled. -/
def tape_env : Env (List ℚ) where
  chol := rat_chol
  dmvnorm_chol := log_kernel
  log := rat_log
  runif := fun s => (s.headD 0, s.tail)
  randn := fun s => (s.headD 0, s.tail)
  uninit := fun _ _ => 0


/-! ## The sampler in binary64 arithmetic

The same lines of the source with every arithmetic operation rounded to the nearest
binary64 number (ties to even), for values in the normal range.  The matrix and state
types, the index checks and the collaborators are those of the exact model. -/

/-- The integer nearest to `x`, ties to even. -/
def rne (x : ℚ) : ℤ :=
  if x - ⌊x⌋ < 1 / 2 then ⌊x⌋
  else if 1 / 2 < x - ⌊x⌋ then ⌊x⌋ + 1
  else if ⌊x⌋ % 2 = 0 then ⌊x⌋ else ⌊x⌋ + 1

/-- The least `j ≥ k` with `n < 2 ^ j`, searched upwards in at most `fuel` steps. -/
def bit_length_from (n : Nat) : Nat → Nat → Nat
  | 0, k => k
  | fuel + 1, k => if n < 2 ^ k then k else bit_length_from n fuel (k + 1)

/-- The number of binary digits of `n`, for `n < 2 ^ 4096`. -/
def bit_length (n : Nat) : Nat := bit_length_from n 4096 0

/-- The exponent `⌊log₂ |q|⌋` of a non-zero rational: the difference of the bit lengths
of numerator and denominator, less one when that overshoots. -/
def ilog2 (q : ℚ) : ℤ :=
  if |q| < (2 : ℚ) ^ ((bit_length q.num.natAbs : ℤ) - (bit_length q.den : ℤ)) then
    (bit_length q.num.natAbs : ℤ) - (bit_length q.den : ℤ) - 1
  else (bit_length q.num.natAbs : ℤ) - (bit_length q.den : ℤ)

/-- The binary64 number nearest to `q` (ties to even): a 53-bit significand times a
power of two.  Overflow and subnormal numbers are not modelled. -/
def fl (q : ℚ) : ℚ :=
  if q = 0 then 0
  else (rne (q / (2 : ℚ) ^ (ilog2 q - 52)) : ℚ) * (2 : ℚ) ^ (ilog2 q - 52)

/-- The integer square root, bit by bit from bit `b - 1` down: the largest `r` with
`r * r ≤ n` among those below `2 ^ b`. -/
def isqrt_bits (n : Nat) : Nat → Nat → Nat
  | 0, r => r
  | b + 1, r => if (r + 2 ^ b) * (r + 2 ^ b) ≤ n then isqrt_bits n b (r + 2 ^ b)
                else isqrt_bits n b r

/-- The integer square root `⌊√n⌋`. -/
def isqrt (n : Nat) : Nat := isqrt_bits n (bit_length n / 2 + 1) 0

/-- The correctly rounded binary64 square root of a positive binary64 number `q`: with
`4 ^ e` the power of four that brings `q` to 105 or 106 bits, the integer square root
of `q / 4 ^ e`, rounded up when `q / 4 ^ e` exceeds the square of the midpoint (a tie
cannot occur). -/
def fsqrt (q : ℚ) : ℚ :=
  if q ≤ 0 then 0
  else
    (if q / (4 : ℚ) ^ (ilog2 q / 2 - 52)
        < ((isqrt ⌊q / (4 : ℚ) ^ (ilog2 q / 2 - 52)⌋₊ : ℚ) + 1 / 2) ^ 2
      then (isqrt ⌊q / (4 : ℚ) ^ (ilog2 q / 2 - 52)⌋₊ : ℚ)
      else (isqrt ⌊q / (4 : ℚ) ^ (ilog2 q / 2 - 52)⌋₊ : ℚ) + 1)
      * (2 : ℚ) ^ (ilog2 q / 2 - 52)

/-- The quotient `v / k` of a vector by a scalar, in binary64. -/
def vec_sdiv_fl (v : Vec) (k : ℚ) : Vec := v.map fun x => fl (x / k)

/-- The product `k * A`, in binary64. -/
def smul_fl (k : ℚ) (A : Mat) : Mat := ⟨A.n_rows, A.cols.map fun c => c.map fun x => fl (k * x)⟩

/-- The quotient `A / k`, in binary64. -/
def sdiv_fl (A : Mat) (k : ℚ) : Mat := ⟨A.n_rows, A.cols.map fun c => c.map fun x => fl (x / k)⟩

/-- The sum `a + b` of two vectors, in binary64. -/
def vec_add_fl (a b : Vec) : Except Error Vec :=
  if a.length = b.length then .ok (List.zipWith (fun x y => fl (x + y)) a b)
  else .error .logic_error

/-- Armadillo's `arrayops::accumulate`: the elements at even positions are added to one
accumulator and those at odd positions to another. -/
def accumulate_fl : Vec → ℚ × ℚ → ℚ × ℚ
  | a :: b :: rest, acc => accumulate_fl rest (fl (acc.1 + a), fl (acc.2 + b))
  | [a], acc => (fl (acc.1 + a), acc.2)
  | [], acc => acc

/-- The inner product of two vectors in binary64, the rounded products summed with the
two accumulators (Armadillo's `op_dot::direct_dot_arma`). -/
def dot_fl (a b : Vec) : ℚ :=
  fl ((accumulate_fl (List.zipWith (fun x y => fl (x * y)) a b) (0, 0)).1
    + (accumulate_fl (List.zipWith (fun x y => fl (x * y)) a b) (0, 0)).2)

/-- The product `A * z`, in binary64. -/
def mat_vec_fl (A : Mat) (z : Vec) : Except Error Vec :=
  if A.n_cols = z.length then .ok ((List.range A.n_rows).map fun r => dot_fl (A.row r) z)
  else .error .logic_error

/-- The mean of the `N` observations of one variable, in binary64: the sum of the two
accumulators divided by `N`. -/
def mean_fl (N : Nat) (v : Vec) : ℚ :=
  fl (fl ((accumulate_fl v (0, 0)).1 + (accumulate_fl v (0, 0)).2) / (N : ℚ))

/-- The deviations from the mean, in binary64. -/
def center_fl (N : Nat) (v : Vec) : Vec := v.map fun x => fl (x - mean_fl N v)

/-- The sample covariance `arma::cov(X)` in binary64, as Armadillo (version 10 and later)
computes it: the column means are subtracted, `tmp.t() * tmp` is formed and divided by
`N - 1`. -/
def cov_fl (X : Mat) : Mat :=
  let norm_val : ℚ := if 1 < X.n_rows then (X.n_rows : ℚ) - 1 else 1
  ⟨X.n_cols, X.cols.map fun cb => X.cols.map fun ca =>
    fl (dot_fl (center_fl X.n_rows ca) (center_fl X.n_rows cb) / norm_val)⟩

/-- Line 49 in binary64; `pow(0.1, 2)` is the rounded square of the binary64 number
`0.1`. -/
def fixed_proposal_fl (n : Nat) : Mat :=
  sdiv_fl (smul_fl (fl (fl (1 / 10) * fl (1 / 10))) (eye n)) (n : ℚ)

/-- Lines 46-47 in binary64. -/
def adapted_proposal_fl (n : Nat) (block : Mat) : Mat :=
  sdiv_fl (smul_fl (fl (fl (238 / 100) * fl (238 / 100))) (cov_fl block.t)) (n : ℚ)

/-- Lines 44-50 in binary64; `0.95` is the binary64 number nearest to it. -/
def select_proposal_fl {σ : Type} (env : Env σ) (n i : Nat) (st : State σ) :
    Except Error (Mat × σ) :=
  if 2 * n ≤ i then
    if (env.runif st.rng).1 < fl (95 / 100) then
      match st.params_mat.cols_range 0 ((i : Int) - 1) with
      | .ok block => .ok (adapted_proposal_fl n block, (env.runif st.rng).2)
      | .error e => .error e
    else .ok (fixed_proposal_fl n, (env.runif st.rng).2)
  else .ok (fixed_proposal_fl n, st.rng)

/-- Line 62 in binary64. -/
def candidate_fl (params : Vec) (L : Mat) (z : Vec) : Except Error Vec :=
  match mat_vec_fl L z with
  | .ok step => vec_add_fl params step
  | .error e => .error e

/-- Lines 61-71 in binary64. -/
def propose_accept_fl {σ : Type} (env : Env σ) (mean : Vec) (Sigma_chol : Mat) (n : Nat)
    (params : Vec) (r : Option Mat) (rng : σ) : Except Error (Vec × σ) :=
  match r with
  | some L =>
    match candidate_fl params L (randn_vec env n rng).1 with
    | .ok params_aux =>
      if env.log (env.runif (randn_vec env n rng).2).1
          < ((fl (env.dmvnorm_chol params_aux mean Sigma_chol
              - env.dmvnorm_chol params mean Sigma_chol) : ℚ) : WithBot ℚ) then
        .ok (params_aux, (env.runif (randn_vec env n rng).2).2)
      else .ok (params, (env.runif (randn_vec env n rng).2).2)
    | .error e => .error e
  | none => .ok (params, rng)

/-- Lines 42-73 in binary64. -/
def iteration_fl {σ : Type} (env : Env σ) (mean : Vec) (Sigma_chol : Mat) (n i : Nat)
    (st : State σ) : Except Error (State σ) :=
  match select_proposal_fl env n i st with
  | .error e => .error e
  | .ok (Sigma_proposal, rng1) =>
    match chol_status env Sigma_proposal with
    | .error e => .error e
    | .ok r =>
      match propose_accept_fl env mean Sigma_chol n st.params r rng1 with
      | .error e => .error e
      | .ok (params, rng2) =>
        match st.params_mat.set_col i params with
        | .error e => .error e
        | .ok pm => .ok ⟨params, pm, rng2⟩

/-- The first `k` iterations of the loop in binary64. -/
def iterations_fl {σ : Type} (env : Env σ) (mean : Vec) (Sigma_chol : Mat) (n : Nat)
    (st0 : State σ) : Nat → Except Error (State σ)
  | 0 => .ok st0
  | k + 1 =>
    match iterations_fl env mean Sigma_chol n st0 k with
    | .ok st => iteration_fl env mean Sigma_chol n k st
    | .error e => .error e

/-- The function `adaptive_haario` in binary64. -/
def adaptive_haario_fl {σ : Type} (env : Env σ) (mean : Vec) (Sigma : Mat) (iter : Nat)
    (rng : σ) : Except Error Output :=
  match chol_or_throw env Sigma with
  | .error e => .error e
  | .ok Sigma_chol =>
    match iterations_fl env mean Sigma_chol mean.length
        ⟨vec_sdiv_fl mean 3, alloc env mean.length iter, rng⟩ iter with
    | .error e => .error e
    | .ok st => .ok ⟨st.params_mat.t⟩

/-- Column `j` of the lower Cholesky factor in binary64. -/
def chol_column_fl (A : Mat) (prev : List Vec) (j : Nat) : Option Vec :=
  if 0 < fl (A.entry j j - dot_fl (prev.map fun c => c.getD j 0) (prev.map fun c => c.getD j 0))
  then
    some ((List.range A.n_rows).map fun r =>
      if r < j then 0
      else if r = j then
        fsqrt (fl (A.entry j j
          - dot_fl (prev.map fun c => c.getD j 0) (prev.map fun c => c.getD j 0)))
      else fl (fl (A.entry r j
          - dot_fl (prev.map fun c => c.getD r 0) (prev.map fun c => c.getD j 0))
        / fsqrt (fl (A.entry j j
          - dot_fl (prev.map fun c => c.getD j 0) (prev.map fun c => c.getD j 0)))))
  else none

/-- The first `k` columns of the lower Cholesky factor in binary64. -/
def chol_columns_fl (A : Mat) : Nat → Option (List Vec)
  | 0 => some []
  | j + 1 =>
    match chol_columns_fl A j with
    | some prev =>
      match chol_column_fl A prev j with
      | some c => some (prev ++ [c])
      | none => none
    | none => none

/-- Cholesky factorisation in binary64: it fails at the first pivot that is not
positive. -/
def chol_fl (A : Mat) : Option Mat :=
  match chol_columns_fl A A.n_rows with
  | some cs => some ⟨A.n_rows, cs⟩
  | none => none

/-- A stand-in for `log` on binary64 numbers: `-∞` at arguments `≤ 0`, the exact `0` at
`1`, the binary64 number nearest to `log(1/2)` at `1/2`, and the lower bound `1 - 1/u`
elsewhere. -/
def log_fl (u : ℚ) : WithBot ℚ :=
  if u ≤ 0 then ⊥
  else if u = 1 / 2 then ((-(6243314768165359 / 2 ^ 53) : ℚ) : WithBot ℚ)
  else ((fl (1 - 1 / u) : ℚ) : WithBot ℚ)

/-- The collaborators in binary64, with the random draws read off a tape. -/
def binary64_env : Env (List ℚ) where
  chol := chol_fl
  dmvnorm_chol := fun x mean L => fl (log_kernel x mean L)
  log := log_fl
  runif := fun s => (s.headD 0, s.tail)
  randn := fun s => (s.headD 0, s.tail)
  uninit := fun _ _ => 0

/-! ## Laws of the Cholesky collaborator used as hypotheses -/

/-- The quadratic form `xᵀ A x` of an `n × n` matrix. -/
def quad_form (n : Nat) (A : Mat) (x : Vec) : ℚ :=
  ∑ r in Finset.range n, ∑ c in Finset.range n, x.getD r 0 * A.entry r c * x.getD c 0

/-- The matrix `A` is an `n × n` symmetric positive-definite matrix. -/
def Mat.IsPosDef (n : Nat) (A : Mat) : Prop :=
  A.n_rows = n ∧ A.n_cols = n ∧ A.WellFormed ∧ (∀ r c, A.entry r c = A.entry c r) ∧
    ∀ x : Vec, x.length = n → (∃ v ∈ x, v ≠ 0) → 0 < quad_form n A x

/-- The factor of an `n × n` matrix is an `n × n` matrix. -/
def CholShape {σ : Type} (env : Env σ) (n : Nat) : Prop :=
  ∀ A L, A.n_rows = n → A.n_cols = n → env.chol A = some L → L.n_rows = n ∧ L.n_cols = n

/-- The factorisation succeeds on every symmetric positive-definite `n × n` matrix. -/
def CholComplete {σ : Type} (env : Env σ) (n : Nat) : Prop :=
  ∀ A, A.IsPosDef n → ∃ L, env.chol A = some L

/-- The factorisation succeeds only on matrices with a positive diagonal (a pivot that
is not positive makes it fail). -/
def CholDiagPos {σ : Type} (env : Env σ) (n : Nat) : Prop :=
  ∀ A L, A.n_rows = n → A.n_cols = n → env.chol A = some L → ∀ j, j < n → 0 < A.entry j j

/-- The shape of the loop state for dimension `n` and `T` iterations. -/
def Shaped {σ : Type} (n T : Nat) (st : State σ) : Prop :=
  st.params.length = n ∧ st.params_mat.n_rows = n ∧ st.params_mat.cols.length = T ∧
    st.params_mat.WellFormed

/-- The preconditions of a run: the dimension `n = len(mean)` is at least one, `Sigma` is
an `n × n` matrix whose lower Cholesky factor `Sigma_chol` exists, and factors of
`n × n` matrices are `n × n`. -/
def Valid {σ : Type} (env : Env σ) (mean : Vec) (Sigma Sigma_chol : Mat) : Prop :=
  1 ≤ mean.length ∧ Sigma.n_rows = mean.length ∧ Sigma.n_cols = mean.length ∧
    env.chol Sigma = some Sigma_chol ∧ CholShape env mean.length

/-- The state of the run of `T` iterations on entry to iteration `i` (after the
iterations `0, ..., i - 1`). -/
def state_at {σ : Type} (env : Env σ) (mean : Vec) (Sigma_chol : Mat) (T : Nat) (rng : σ)
    (i : Nat) : Except Error (State σ) :=
  iterations env mean Sigma_chol mean.length (initial_state env mean T rng) i

/-! ## Basic facts -/

theorem cols_range_initial (A : Mat) (i : Nat) (h1 : 1 ≤ i) (h2 : i ≤ A.cols.length) :
    A.cols_range 0 ((i : Int) - 1) = .ok ⟨A.n_rows, A.cols.take i⟩ := by
  unfold Mat.cols_range Mat.n_cols
  have h3 : ((i : Int) - 1).toNat + 1 = i := by omega
  rw [if_pos (by omega), h3]
  simp

theorem randn_vec_length {σ : Type} (env : Env σ) (k : Nat) (s : σ) :
    (randn_vec env k s).1.length = k := by
  induction k generalizing s with
  | zero => simp [randn_vec]
  | succ k ih => simp [randn_vec, ih]

theorem candidate_ok (params : Vec) (L : Mat) (z : Vec) (h1 : L.n_cols = z.length)
    (h2 : L.n_rows = params.length) :
    ∃ c, candidate params L z = .ok c ∧ c.length = params.length := by
  simp [candidate, mat_vec, vec_add, h1, h2]

theorem select_proposal_square {σ : Type} (env : Env σ) (n i : Nat) (st : State σ)
    (S : Mat) (r : σ) (h : select_proposal env n i st = .ok (S, r)) :
    S.n_rows = S.n_cols ∧ (st.params_mat.n_rows = n → S.n_rows = n) := by
  have hf : (fixed_proposal n).n_rows = (fixed_proposal n).n_cols ∧
      (fixed_proposal n).n_rows = n := by
    simp [fixed_proposal, Mat.sdiv, Mat.smul, eye, Mat.n_cols]
  unfold select_proposal at h
  split at h
  · split at h
    · split at h
      · rename_i block hb
        cases h
        unfold Mat.cols_range at hb
        split at hb
        · cases hb
          simp [adapted_proposal, Mat.sdiv, Mat.smul, cov, Mat.t, Mat.n_cols]
        · cases hb
      · cases h
    · cases h
      exact ⟨hf.1, fun _ => hf.2⟩
  · cases h
    exact ⟨hf.1, fun _ => hf.2⟩

theorem iteration_unfold {σ : Type} (env : Env σ) (mean : Vec) (Sigma_chol : Mat)
    (n i : Nat) (st : State σ) (S : Mat) (r1 : σ)
    (h : select_proposal env n i st = .ok (S, r1)) :
    iteration env mean Sigma_chol n i st =
      match propose_accept env mean Sigma_chol n st.params (env.chol S) r1 with
      | .error e => .error e
      | .ok (params, rng2) =>
        match st.params_mat.set_col i params with
        | .error e => .error e
        | .ok pm => .ok ⟨params, pm, rng2⟩ := by
  have hsq := (select_proposal_square env n i st S r1 h).1
  simp [iteration, h, chol_status, hsq]

theorem iteration_writes {σ : Type} (env : Env σ) (mean : Vec) (Sigma_chol : Mat)
    (n i : Nat) (st st1 : State σ) (h : iteration env mean Sigma_chol n i st = .ok st1) :
    st1.params_mat = ⟨st.params_mat.n_rows, st.params_mat.cols.set i st1.params⟩ ∧
      i < st.params_mat.cols.length ∧ st1.params.length = st.params_mat.n_rows := by
  unfold iteration at h
  split at h
  · cases h
  · split at h
    · cases h
    · split at h
      · cases h
      · split at h
        · cases h
        · rename_i pm hpm
          cases h
          unfold Mat.set_col Mat.n_cols at hpm
          split at hpm
          · rename_i hc
            cases hpm
            exact ⟨rfl, hc.1, hc.2⟩
          · cases hpm

theorem select_proposal_ok {σ : Type} (env : Env σ) (n i : Nat) (st : State σ)
    (h1 : 2 * n ≤ i → 1 ≤ i) (h2 : i ≤ st.params_mat.cols.length) :
    select_proposal env n i st = .ok
      (if 2 * n ≤ i then
        (if (env.runif st.rng).1 < 95 / 100 then
          adapted_proposal n ⟨st.params_mat.n_rows, st.params_mat.cols.take i⟩
         else fixed_proposal n, (env.runif st.rng).2)
       else (fixed_proposal n, st.rng)) := by
  unfold select_proposal
  by_cases hi : 2 * n ≤ i
  · rw [if_pos hi, if_pos hi, cols_range_initial _ i (h1 hi) h2]
    by_cases hu : (env.runif st.rng).1 < 95 / 100
    · rw [if_pos hu, if_pos hu]
    · rw [if_neg hu, if_neg hu]
  · rw [if_neg hi, if_neg hi]

theorem propose_accept_ok {σ : Type} (env : Env σ) (mean : Vec) (Sigma_chol : Mat)
    (n : Nat) (params : Vec) (r : Option Mat) (rng : σ)
    (h : ∀ L, r = some L → L.n_rows = n ∧ L.n_cols = n) (hp : params.length = n) :
    ∃ p r2, propose_accept env mean Sigma_chol n params r rng = .ok (p, r2) ∧
      p.length = n := by
  cases r with
  | none => exact ⟨params, rng, rfl, hp⟩
  | some L =>
    obtain ⟨hr, hc⟩ := h L rfl
    obtain ⟨c, hcand, hlen⟩ := candidate_ok params L (randn_vec env n rng).1
      (by rw [hc, randn_vec_length]) (by rw [hr, hp])
    simp only [propose_accept, hcand]
    split
    · exact ⟨_, _, rfl, by rw [hlen, hp]⟩
    · exact ⟨_, _, rfl, hp⟩

theorem iteration_ok {σ : Type} (env : Env σ) (mean : Vec) (Sigma_chol : Mat)
    (n T i : Nat) (st : State σ) (hn : 1 ≤ n) (hS : CholShape env n)
    (hst : Shaped n T st) (hi : i < T) :
    ∃ st1, iteration env mean Sigma_chol n i st = .ok st1 ∧ Shaped n T st1 := by
  obtain ⟨hp, hr, hc, hw⟩ := hst
  have hsel := select_proposal_ok env n i st (by omega) (by omega)
  have hsq := select_proposal_square env n i st _ _ hsel
  obtain ⟨p, r2, hpa, hpl⟩ := propose_accept_ok env mean Sigma_chol n st.params
    (env.chol _) _ (fun L hL => hS _ L (hsq.2 hr) (by rw [← hsq.1]; exact hsq.2 hr) hL) hp
  rw [iteration_unfold env mean Sigma_chol n i st _ _ hsel, hpa]
  have hset : st.params_mat.set_col i p = .ok ⟨st.params_mat.n_rows, st.params_mat.cols.set i p⟩ := by
    simp [Mat.set_col, Mat.n_cols, hc, hi, hpl, hr]
  simp only [hset]
  refine ⟨_, rfl, hpl, hr, by simp [hc], ?_⟩
  intro c hcm
  simp only at hcm
  rcases List.mem_or_eq_of_mem_set hcm with h | h
  · exact hw c h
  · rw [h, hpl, hr]

theorem initial_state_shaped {σ : Type} (env : Env σ) (mean : Vec) (T : Nat) (rng : σ) :
    Shaped mean.length T (initial_state env mean T rng) := by
  refine ⟨by simp [initial_state, vec_sdiv], rfl, by simp [initial_state, alloc], ?_⟩
  intro c hc
  simp only [initial_state, alloc, List.mem_map, List.mem_range] at hc
  obtain ⟨j, _, rfl⟩ := hc
  simp [initial_state, alloc]

theorem iterations_ok {σ : Type} (env : Env σ) (mean : Vec) (Sigma_chol : Mat)
    (T : Nat) (rng : σ) (hn : 1 ≤ mean.length) (hS : CholShape env mean.length)
    (k : Nat) (hk : k ≤ T) :
    ∃ st, iterations env mean Sigma_chol mean.length (initial_state env mean T rng) k
        = .ok st ∧ Shaped mean.length T st := by
  induction k with
  | zero => exact ⟨_, rfl, initial_state_shaped env mean T rng⟩
  | succ k ih =>
    obtain ⟨st, hst, hsh⟩ := ih (by omega)
    obtain ⟨st1, h1, hsh1⟩ := iteration_ok env mean Sigma_chol mean.length T k st hn hS hsh
      (by omega)
    exact ⟨st1, by simp only [iterations, hst, h1], hsh1⟩

theorem take_set_self {α : Type} (l : List α) (k : Nat) (a : α) (h : k < l.length) :
    (l.set k a).take (k + 1) = l.take k ++ [a] := by
  apply List.ext_getElem?
  intro m
  by_cases hm : m < k
  · rw [List.getElem?_take_of_lt (by omega), List.getElem?_set_ne (by omega),
      List.getElem?_append_left (by simp; omega), List.getElem?_take_of_lt hm]
  · by_cases hmk : m = k
    · subst hmk
      rw [List.getElem?_take_of_lt (by omega), List.getElem?_set_self h,
        List.getElem?_append_right (by simp)]
      simp [Nat.min_eq_left (Nat.le_of_lt h)]
    · rw [List.getElem?_take_eq_none (by omega), List.getElem?_eq_none]
      simp
      omega

theorem take_set_above {α : Type} (l : List α) (k m : Nat) (a : α) (h : k ≤ m) :
    (l.set m a).take k = l.take k := by
  apply List.ext_getElem?
  intro j
  by_cases hj : j < k
  · rw [List.getElem?_take_of_lt hj, List.getElem?_take_of_lt hj,
      List.getElem?_set_ne (by omega)]
  · rw [List.getElem?_take_eq_none (by omega), List.getElem?_take_eq_none (by omega)]

theorem map_getD_range (l : Vec) : (List.range l.length).map (fun r => l.getD r 0) = l := by
  apply List.ext_getElem?
  intro m
  by_cases hm : m < l.length
  · simp [List.getElem?_range hm, List.getElem?_eq_getElem hm]
  · rw [List.getElem?_eq_none (by simpa using hm), List.getElem?_eq_none (by simpa using hm)]

/-- Row `j` of the transpose of a well-formed matrix is its column `j`. -/
theorem row_t (A : Mat) (hw : A.WellFormed) (j : Nat) (c : Vec) (hj : A.cols[j]? = some c) :
    A.t.row j = c := by
  have hlen : c.length = A.n_rows := hw c (List.getElem?_mem hj)
  have hrow : ∀ r, (A.row r).getD j 0 = c.getD r 0 := by
    intro r
    simp [Mat.row, hj]
  simp only [Mat.t, Mat.row, List.map_map]
  rw [← hlen]
  conv_rhs => rw [← map_getD_range c]
  apply List.map_congr_left
  intro r _
  exact hrow r

theorem iteration_result {σ : Type} (env : Env σ) (mean : Vec) (Sigma_chol : Mat)
    (n i : Nat) (st st1 : State σ) (h : iteration env mean Sigma_chol n i st = .ok st1) :
    ∃ S r1, select_proposal env n i st = .ok (S, r1) ∧
      propose_accept env mean Sigma_chol n st.params (env.chol S) r1
        = .ok (st1.params, st1.rng) := by
  cases hsel : select_proposal env n i st with
  | error e => simp [iteration, hsel] at h
  | ok v =>
    obtain ⟨S, r1⟩ := v
    refine ⟨S, r1, rfl, ?_⟩
    rw [iteration_unfold env mean Sigma_chol n i st S r1 hsel] at h
    split at h
    · cases h
    · rename_i p r2 hpa
      split at h
      · cases h
      · cases h
        exact hpa

/-- The columns written by earlier iterations are not changed by later ones. -/
theorem iterations_stable {σ : Type} (env : Env σ) (mean : Vec) (Sigma_chol : Mat) (n : Nat)
    (st0 : State σ) (k m : Nat) (sk sm : State σ) (hkm : k ≤ m)
    (hk : iterations env mean Sigma_chol n st0 k = .ok sk)
    (hm : iterations env mean Sigma_chol n st0 m = .ok sm) :
    sm.params_mat.cols.take k = sk.params_mat.cols.take k := by
  induction m generalizing sm with
  | zero =>
    have : k = 0 := by omega
    subst this
    simp
  | succ m ih =>
    by_cases hkm1 : k = m + 1
    · subst hkm1
      rw [hk] at hm
      cases hm
      rfl
    · simp only [iterations] at hm
      split at hm
      · rename_i s hs
        have hw := (iteration_writes env mean Sigma_chol n m s sm hm).1
        rw [hw]
        simp only
        rw [take_set_above _ _ _ _ (by omega)]
        exact ih s (by omega) hs
      · cases hm

/-- Iteration `k` records the state it ends with as column `k`. -/
theorem iterations_recorded {σ : Type} (env : Env σ) (mean : Vec) (Sigma_chol : Mat)
    (n : Nat) (st0 : State σ) (k : Nat) (s : State σ)
    (h : iterations env mean Sigma_chol n st0 (k + 1) = .ok s) :
    s.params_mat.cols[k]? = some s.params := by
  simp only [iterations] at h
  split at h
  · rename_i s0 hs0
    obtain ⟨hw, hlt, _⟩ := iteration_writes env mean Sigma_chol n k s0 s h
    rw [hw]
    simp [List.getElem?_set_self hlt]
  · cases h

/-- Column `j` of the history at any later point is the state iteration `j` ended with. -/
theorem history_col {σ : Type} (env : Env σ) (mean : Vec) (Sigma_chol : Mat)
    (n : Nat) (st0 : State σ) (j m : Nat) (sj sm : State σ) (hjm : j < m)
    (hj : iterations env mean Sigma_chol n st0 (j + 1) = .ok sj)
    (hm : iterations env mean Sigma_chol n st0 m = .ok sm) :
    sm.params_mat.cols[j]? = some sj.params := by
  have h1 := iterations_stable env mean Sigma_chol n st0 (j + 1) m sj sm (by omega) hj hm
  have h2 := iterations_recorded env mean Sigma_chol n st0 j sj hj
  rw [← List.getElem?_take_of_succ, h1, List.getElem?_take_of_succ, h2]

theorem rows_t_take (A : Mat) (hw : A.WellFormed) (i : Nat) (hi : i ≤ A.cols.length) :
    (List.range i).map A.t.row = A.cols.take i := by
  apply List.ext_getElem?
  intro m
  by_cases hm : m < i
  · have hm2 : m < A.cols.length := by omega
    rw [List.getElem?_map, List.getElem?_range hm, List.getElem?_take_of_lt hm,
      List.getElem?_eq_getElem hm2]
    simp only [Option.map_some']
    rw [row_t A hw m _ (List.getElem?_eq_getElem hm2)]
  · rw [List.getElem?_eq_none (by simp; omega), List.getElem?_take_eq_none (by omega)]

theorem adaptive_haario_unfold {σ : Type} (env : Env σ) (mean : Vec) (Sigma Sigma_chol : Mat)
    (T : Nat) (rng : σ) (hv : Valid env mean Sigma Sigma_chol) :
    adaptive_haario env mean Sigma T rng =
      match state_at env mean Sigma_chol T rng T with
      | .error e => .error e
      | .ok st => .ok ⟨st.params_mat.t⟩ := by
  obtain ⟨_, hr, hc, hch, _⟩ := hv
  simp [adaptive_haario, chol_or_throw, hr, hc, hch, state_at]

/-- Under the preconditions every prefix of the loop runs to completion, and the
columns it has written are the first rows of the final output. -/
theorem run_history {σ : Type} (env : Env σ) (mean : Vec) (Sigma Sigma_chol : Mat)
    (T : Nat) (rng : σ) (hv : Valid env mean Sigma Sigma_chol) :
    ∃ fin, state_at env mean Sigma_chol T rng T = .ok fin ∧
      adaptive_haario env mean Sigma T rng = .ok ⟨fin.params_mat.t⟩ ∧
      Shaped mean.length T fin ∧
      ∀ i, i ≤ T → ∃ st, state_at env mean Sigma_chol T rng i = .ok st ∧
        Shaped mean.length T st ∧
        st.params_mat.cols.take i = (List.range i).map fin.params_mat.t.row := by
  obtain ⟨fin, hfin, hsh⟩ := iterations_ok env mean Sigma_chol T rng hv.1 hv.2.2.2.2 T
    (Nat.le_refl T)
  have hfin1 : state_at env mean Sigma_chol T rng T = .ok fin := hfin
  refine ⟨fin, hfin, ?_, hsh, ?_⟩
  · rw [adaptive_haario_unfold env mean Sigma Sigma_chol T rng hv, hfin1]
  · intro i hi
    obtain ⟨st, hst, hshi⟩ := iterations_ok env mean Sigma_chol T rng hv.1 hv.2.2.2.2 i hi
    refine ⟨st, hst, hshi, ?_⟩
    rw [rows_t_take _ hsh.2.2.2 i (by rw [hsh.2.2.1]; exact hi)]
    exact (iterations_stable env mean Sigma_chol mean.length _ i T st fin hi hst hfin).symm

/-- Row `i` of the output is the state iteration `i` ended with. -/
theorem output_row {σ : Type} (env : Env σ) (mean : Vec) (Sigma_chol : Mat)
    (T : Nat) (rng : σ) (i : Nat) (hi : i < T) (fin st1 : State σ)
    (hsh : Shaped mean.length T fin)
    (hfin : state_at env mean Sigma_chol T rng T = .ok fin)
    (h1 : state_at env mean Sigma_chol T rng (i + 1) = .ok st1) :
    fin.params_mat.t.row i = st1.params :=
  row_t _ hsh.2.2.2 i _
    (history_col env mean Sigma_chol mean.length _ i T st1 fin hi h1 hfin)

/-- Two runs that differ only in the iteration count are in the same state on entry to
every iteration both of them execute. -/
theorem runs_agree {σ : Type} (env : Env σ) (mean : Vec) (Sigma Sigma_chol : Mat)
    (T T1 : Nat) (rng : σ) (hv : Valid env mean Sigma Sigma_chol) (k : Nat)
    (hk : k ≤ T) (hk1 : k ≤ T1) (st st1 : State σ)
    (hst : state_at env mean Sigma_chol T rng k = .ok st)
    (hst1 : state_at env mean Sigma_chol T1 rng k = .ok st1) :
    st.params = st1.params ∧ st.rng = st1.rng ∧
      st.params_mat.cols.take k = st1.params_mat.cols.take k := by
  induction k generalizing st st1 with
  | zero =>
    simp only [state_at, iterations, Except.ok.injEq] at hst hst1
    subst hst
    subst hst1
    simp [initial_state]
  | succ k ih =>
    obtain ⟨s, hs, hsh⟩ := iterations_ok env mean Sigma_chol T rng hv.1 hv.2.2.2.2 k
      (by omega)
    obtain ⟨s1, hs1, hsh1⟩ := iterations_ok env mean Sigma_chol T1 rng hv.1 hv.2.2.2.2 k
      (by omega)
    obtain ⟨hp, hr, ht⟩ := ih (by omega) (by omega) s s1 hs hs1
    have hit : iteration env mean Sigma_chol mean.length k s = .ok st := by
      simpa only [state_at, iterations, hs] using hst
    have hit1 : iteration env mean Sigma_chol mean.length k s1 = .ok st1 := by
      simpa only [state_at, iterations, hs1] using hst1
    obtain ⟨S, r1, hsel, hpa⟩ := iteration_result env mean Sigma_chol _ k s st hit
    obtain ⟨S1, r2, hsel1, hpa1⟩ := iteration_result env mean Sigma_chol _ k s1 st1 hit1
    rw [select_proposal_ok env _ k s (by have := hv.1; omega)
      (by rw [hsh.2.2.1]; omega)] at hsel
    rw [select_proposal_ok env _ k s1 (by have := hv.1; omega)
      (by rw [hsh1.2.2.1]; omega)] at hsel1
    rw [hsh.2.1] at hsel
    rw [← hr, ← ht, hsh1.2.1, hsel] at hsel1
    simp only [Except.ok.injEq, Prod.mk.injEq] at hsel1
    rw [← hp, ← hsel1.1, ← hsel1.2, hpa] at hpa1
    simp only [Except.ok.injEq, Prod.mk.injEq] at hpa1
    refine ⟨hpa1.1, hpa1.2, ?_⟩
    obtain ⟨hw, hlt, _⟩ := iteration_writes env mean Sigma_chol _ k s st hit
    obtain ⟨hw1, hlt1, _⟩ := iteration_writes env mean Sigma_chol _ k s1 st1 hit1
    rw [hw, hw1]
    simp only
    rw [take_set_self _ _ _ hlt, take_set_self _ _ _ hlt1, ht, hpa1.1]

/-- The step from the state on entry to iteration `i` to the state on entry to
iteration `i + 1` is the loop body. -/
theorem state_at_succ {σ : Type} (env : Env σ) (mean : Vec) (Sigma_chol : Mat) (T : Nat)
    (rng : σ) (i : Nat) (st : State σ) (hst : state_at env mean Sigma_chol T rng i = .ok st) :
    state_at env mean Sigma_chol T rng (i + 1)
      = iteration env mean Sigma_chol mean.length i st := by
  have hst0 : iterations env mean Sigma_chol mean.length (initial_state env mean T rng) i
      = .ok st := hst
  simp only [state_at, iterations, hst0]

/-- A run of one iteration in dimension one with target covariance `[[1]]`, when the
proposal factor is `[[l]]`: the single recorded state. -/
theorem run_one {σ : Type} (env : Env σ) (m l : ℚ) (Sigma_chol : Mat) (rng : σ)
    (h1 : env.chol ⟨1, [[1]]⟩ = some Sigma_chol)
    (h2 : env.chol (fixed_proposal 1) = some ⟨1, [[l]]⟩) :
    adaptive_haario env [m] ⟨1, [[1]]⟩ 1 rng = .ok ⟨⟨1, [
      if env.log (env.runif (env.randn rng).2).1
          < ((env.dmvnorm_chol [m / 3 + l * (env.randn rng).1] [m] Sigma_chol
              - env.dmvnorm_chol [m / 3] [m] Sigma_chol : ℚ) : WithBot ℚ)
      then [m / 3 + l * (env.randn rng).1] else [m / 3]]⟩⟩ := by
  have hsel : select_proposal env 1 0 (initial_state env [m] 1 rng)
      = .ok (fixed_proposal 1, rng) := by
    simp [select_proposal, initial_state]
  have hcand : candidate [m / 3] ⟨1, [[l]]⟩ [(env.randn rng).1]
      = .ok [m / 3 + l * (env.randn rng).1] := by
    simp [candidate, mat_vec, vec_add, Mat.n_cols, List.range_succ]
  have hit := iteration_unfold env [m] Sigma_chol 1 0 (initial_state env [m] 1 rng) _ _ hsel
  rw [h2] at hit
  have hp : (initial_state env [m] 1 rng).params = [m / 3] := by
    simp [initial_state, vec_sdiv]
  have hz : (randn_vec env 1 rng) = ([(env.randn rng).1], (env.randn rng).2) := by
    simp [randn_vec]
  simp only [propose_accept, hp, hz, hcand, accept] at hit
  have hrun : adaptive_haario env [m] ⟨1, [[1]]⟩ 1 rng =
      match iteration env [m] Sigma_chol 1 0 (initial_state env [m] 1 rng) with
      | .error e => .error e
      | .ok st => .ok ⟨st.params_mat.t⟩ := by
    simp [adaptive_haario, chol_or_throw, Mat.n_cols, h1, iterations]
  by_cases hc : env.log (env.runif (env.randn rng).2).1
      < ((env.dmvnorm_chol [m / 3 + l * (env.randn rng).1] [m] Sigma_chol
          - env.dmvnorm_chol [m / 3] [m] Sigma_chol : ℚ) : WithBot ℚ)
  · rw [if_pos hc] at hit ⊢
    rw [hrun, hit]
    simp [initial_state, alloc, Mat.set_col, Mat.n_cols, Mat.t, Mat.row, List.range_succ]
  · rw [if_neg hc] at hit ⊢
    rw [hrun, hit]
    simp [initial_state, alloc, Mat.set_col, Mat.n_cols, Mat.t, Mat.row, List.range_succ]

theorem fixed_proposal_entry (n r c : Nat) :
    (fixed_proposal n).entry r c
      = if r < n ∧ c < n ∧ r = c then (1 / 10 : ℚ) ^ 2 / (n : ℚ) else 0 := by
  unfold fixed_proposal Mat.sdiv Mat.smul eye Mat.entry
  by_cases hc : c < n
  · by_cases hr : r < n
    · by_cases hrc : r = c
      · simp [List.getElem?_range, hc, hr, hrc]
      · simp [List.getElem?_range, hc, hr, hrc]
    · have h0 : (List.range n)[r]? = none := List.getElem?_eq_none (by simp; omega)
      simp [List.getElem?_range, hc, hr, h0]
  · have h0 : (List.range n)[c]? = none := List.getElem?_eq_none (by simp; omega)
    simp [hc, h0]

theorem fixed_proposal_eq_smul (n : Nat) :
    fixed_proposal n = Mat.smul ((1 / 10 : ℚ) ^ 2 / (n : ℚ)) (eye n) := by
  simp [fixed_proposal, Mat.sdiv, Mat.smul, mul_div_right_comm]

theorem adapted_proposal_eq_smul (n : Nat) (block : Mat) :
    adapted_proposal n block = Mat.smul ((238 / 100 : ℚ) ^ 2 / (n : ℚ)) (cov block.t) := by
  simp [adapted_proposal, Mat.sdiv, Mat.smul, mul_div_right_comm]

/-- The fixed proposal covariance is symmetric positive definite. -/
theorem fixed_proposal_pos_def (n : Nat) (hn : 1 ≤ n) : (fixed_proposal n).IsPosDef n := by
  have hk : (0 : ℚ) < (1 / 10 : ℚ) ^ 2 / (n : ℚ) := by
    have : (0 : ℚ) < (n : ℚ) := by exact_mod_cast hn
    positivity
  refine ⟨by simp [fixed_proposal, Mat.sdiv, Mat.smul, eye],
    by simp [fixed_proposal, Mat.sdiv, Mat.smul, eye, Mat.n_cols], ?_, ?_, ?_⟩
  · intro c hc
    simp only [fixed_proposal, Mat.sdiv, Mat.smul, eye, List.map_map, List.mem_map,
      List.mem_range] at hc
    obtain ⟨j, _, rfl⟩ := hc
    simp [fixed_proposal, Mat.sdiv, Mat.smul, eye]
  · intro r c
    rw [fixed_proposal_entry, fixed_proposal_entry]
    by_cases h : r = c
    · subst h
      rfl
    · rw [if_neg (fun hh => h hh.2.2), if_neg (fun hh => h hh.2.2.symm)]
  · intro x hx hne
    obtain ⟨v, hv, hv0⟩ := hne
    obtain ⟨j, hj, hjv⟩ := List.getElem_of_mem hv
    unfold quad_form
    have hinner : ∀ r ∈ Finset.range n,
        (∑ c in Finset.range n, x.getD r 0 * (fixed_proposal n).entry r c * x.getD c 0)
          = x.getD r 0 * ((1 / 10 : ℚ) ^ 2 / (n : ℚ)) * x.getD r 0 := by
      intro r hr
      rw [Finset.sum_eq_single r]
      · rw [fixed_proposal_entry, if_pos ⟨Finset.mem_range.mp hr, Finset.mem_range.mp hr, rfl⟩]
      · intro c _ hcr
        rw [fixed_proposal_entry, if_neg (fun hh => hcr hh.2.2.symm)]
        simp
      · intro h
        exact absurd hr h
    rw [Finset.sum_congr rfl hinner]
    apply Finset.sum_pos'
    · intro r _
      have := mul_self_nonneg (x.getD r 0)
      nlinarith
    · refine ⟨j, Finset.mem_range.mpr (by omega), ?_⟩
      have hxj : x.getD j 0 = v := by
        rw [List.getD_eq_getElem _ _ hj, hjv]
      rw [hxj]
      have := mul_self_pos.mpr hv0
      nlinarith

/-- The adapted proposal covariance of a history whose columns are all the same vector
has a zero in its top left corner. -/
theorem adapted_proposal_degenerate (n : Nat) (B : Mat) (x : Vec) (hn : 1 ≤ n)
    (hr : B.n_rows = n) (hne : B.cols ≠ []) (hall : ∀ c ∈ B.cols, c = x) :
    (adapted_proposal n B).entry 0 0 = 0 := by
  have hrep : B.cols = List.replicate B.cols.length x :=
    List.eq_replicate_iff.mpr ⟨rfl, hall⟩
  have hlen : 0 < B.cols.length := List.length_pos.mpr hne
  have hrow : B.row 0 = List.replicate B.cols.length (x.getD 0 0) := by
    unfold Mat.row
    rw [hrep]
    simp
  have hcen : center B.cols.length (B.row 0) = List.replicate B.cols.length 0 := by
    unfold center
    rw [hrow]
    have hne0 : (B.cols.length : ℚ) ≠ 0 := by exact_mod_cast (Nat.pos_iff_ne_zero.mp hlen)
    simp [List.sum_replicate, hne0]
  have hdot : dot (List.replicate B.cols.length (0 : ℚ)) (List.replicate B.cols.length 0)
      = 0 := by
    simp [dot, List.zipWith_replicate]
  obtain ⟨m, rfl⟩ : ∃ m, n = m + 1 := ⟨n - 1, by omega⟩
  simp [adapted_proposal, Mat.sdiv, Mat.smul, cov, Mat.t, Mat.entry, Mat.n_cols, hr,
    List.range_succ_eq_map, hcen, hdot]

/-! ## The rational instance: laws and evaluations -/

theorem chol_columns_length (A : Mat) (k : Nat) (cs : List Vec)
    (h : chol_columns A k = some cs) : cs.length = k := by
  induction k generalizing cs with
  | zero =>
    simp only [chol_columns, Option.some.injEq] at h
    subst h
    rfl
  | succ k ih =>
    simp only [chol_columns] at h
    split at h
    · rename_i prev hprev
      split at h
      · cases h
        simp [ih prev hprev]
      · cases h
    · cases h

theorem chol_columns_diag (A : Mat) (k : Nat) (cs : List Vec)
    (h : chol_columns A k = some cs) : ∀ j, j < k → 0 < A.entry j j := by
  induction k generalizing cs with
  | zero => intro j hj; omega
  | succ k ih =>
    simp only [chol_columns] at h
    split at h
    · rename_i prev hprev
      split at h
      · rename_i c hc
        intro j hj
        by_cases hjk : j < k
        · exact ih prev hprev j hjk
        · have : j = k := by omega
          subst this
          unfold chol_column at hc
          split at hc
          · rename_i hpos
            have hsq : 0 ≤ (prev.map fun c => c.getD j 0 ^ 2).sum := by
              apply List.sum_nonneg
              intro x hx
              simp only [List.mem_map] at hx
              obtain ⟨c, _, rfl⟩ := hx
              positivity
            linarith
          · cases hc
      · cases h
    · cases h

theorem tape_chol_shape (n : Nat) : CholShape tape_env n := by
  intro A L hr _ h
  simp only [tape_env, rat_chol] at h
  split at h
  · rename_i cs hcs
    cases h
    exact ⟨hr, by simp [Mat.n_cols, chol_columns_length A _ cs hcs, hr]⟩
  · cases h

theorem tape_chol_diag_pos (n : Nat) : CholDiagPos tape_env n := by
  intro A L hr _ h j hj
  simp only [tape_env, rat_chol] at h
  split at h
  · rename_i cs hcs
    exact chol_columns_diag A _ cs hcs j (by omega)
  · cases h

theorem tape_chol_complete_one : CholComplete tape_env 1 := by
  intro A hA
  obtain ⟨hr, _, _, _, hq⟩ := hA
  have h0 : 0 < A.entry 0 0 := by
    have := hq [1] rfl ⟨1, by simp, one_ne_zero⟩
    simpa [quad_form] using this
  simp [tape_env, rat_chol, hr, chol_columns, chol_column, h0]

theorem tape_chol_unit : tape_env.chol ⟨1, [[1]]⟩ = some ⟨1, [[1]]⟩ := by
  simp [tape_env, rat_chol, chol_columns, chol_column, Mat.entry, qsqrt, List.range_succ]

theorem tape_valid_one (m : ℚ) : Valid tape_env [m] ⟨1, [[1]]⟩ ⟨1, [[1]]⟩ := by
  refine ⟨by simp, rfl, rfl, ?_, tape_chol_shape 1⟩
  simp [tape_env, rat_chol, chol_columns, chol_column, Mat.entry, qsqrt, List.range_succ]

theorem fixed_proposal_one : fixed_proposal 1 = ⟨1, [[1 / 100]]⟩ := by
  simp [fixed_proposal, Mat.sdiv, Mat.smul, eye, List.range_succ]
  norm_num

theorem tape_chol_fixed_one : tape_env.chol (fixed_proposal 1) = some ⟨1, [[1 / 10]]⟩ := by
  rw [fixed_proposal_one]
  simp [tape_env, rat_chol, chol_columns, chol_column, Mat.entry, List.range_succ]
  unfold qsqrt
  norm_num

theorem tape_candidate (p z : ℚ) :
    candidate [p] ⟨1, [[1 / 10]]⟩ [z] = .ok [p + 1 / 10 * z] := by
  simp [candidate, mat_vec, vec_add, Mat.n_cols, List.range_succ]

/-- An iteration before the adaptation window, for the tape instance in dimension one
with mean `[0]`: the candidate `p + z / 10` is rejected when the acceptance draw is `1`
and it is not closer to the mean than `p = 0`. -/
theorem tape_iteration_reject (i : Nat) (hi : i < 2) (cols : List Vec) (hc : i < cols.length)
    (z : ℚ) (rest : List ℚ) :
    iteration tape_env [0] ⟨1, [[1]]⟩ 1 i ⟨[0], ⟨1, cols⟩, z :: 1 :: rest⟩
      = .ok ⟨[0], ⟨1, cols.set i [0]⟩, rest⟩ := by
  have hsel : select_proposal tape_env 1 i ⟨[0], ⟨1, cols⟩, z :: 1 :: rest⟩
      = .ok (fixed_proposal 1, z :: 1 :: rest) := by
    simp [select_proposal, Nat.not_le.mpr hi]
  rw [iteration_unfold tape_env [0] ⟨1, [[1]]⟩ 1 i _ _ _ hsel, tape_chol_fixed_one]
  have hz : randn_vec tape_env 1 (z :: 1 :: rest) = ([z], 1 :: rest) := by
    simp [randn_vec, tape_env]
  simp only [propose_accept, hz, tape_candidate]
  have hrej : ¬ tape_env.log (tape_env.runif (1 :: rest)).1
      < ((accept tape_env [0] ⟨1, [[1]]⟩ [0 + 1 / 10 * z] [0] : ℚ) : WithBot ℚ) := by
    have hlog : tape_env.log (tape_env.runif (1 :: rest)).1 = ((0 : ℚ) : WithBot ℚ) := by
      simp [tape_env, rat_log]
    rw [hlog, WithBot.coe_lt_coe]
    simp [accept, tape_env, log_kernel, forward_solve, Mat.entry]
    positivity
  rw [if_neg hrej]
  simp [Mat.set_col, Mat.n_cols, hc, tape_env]

theorem tape_state_two :
    state_at tape_env [0] ⟨1, [[1]]⟩ 3 [1, 1, 1, 1, 1 / 2] 2
      = .ok ⟨[0], ⟨1, [[0], [0], [0]]⟩, [1 / 2]⟩ := by
  have h0 : state_at tape_env [0] ⟨1, [[1]]⟩ 3 [1, 1, 1, 1, 1 / 2] 0
      = .ok ⟨[0], ⟨1, [[0], [0], [0]]⟩, [1, 1, 1, 1, 1 / 2]⟩ := by
    simp [state_at, iterations, initial_state, vec_sdiv, alloc, tape_env, List.range_succ]
  have h1 : state_at tape_env [0] ⟨1, [[1]]⟩ 3 [1, 1, 1, 1, 1 / 2] 1
      = .ok ⟨[0], ⟨1, [[0], [0], [0]]⟩, [1, 1, 1 / 2]⟩ := by
    rw [state_at_succ _ _ _ _ _ 0 _ h0]
    exact tape_iteration_reject 0 (by decide) _ (by decide) 1 _
  rw [state_at_succ _ _ _ _ _ 1 _ h1]
  exact tape_iteration_reject 1 (by decide) _ (by decide) 1 _

/-! ## The claims -/

/-- C1: for every valid input and every random stream the run returns, and the returned
`params` is the transpose of the internal history, which has `n` rows and `T` columns:
`params` has `T` rows, each of dimension `n`. -/
theorem adaptive_haario_shape {σ : Type} (env : Env σ) (mean : Vec) (Sigma Sigma_chol : Mat)
    (T : Nat) (rng : σ) (hv : Valid env mean Sigma Sigma_chol) :
    ∃ fin, state_at env mean Sigma_chol T rng T = .ok fin ∧
      adaptive_haario env mean Sigma T rng = .ok ⟨fin.params_mat.t⟩ ∧
      fin.params_mat.n_rows = mean.length ∧ fin.params_mat.n_cols = T ∧
      fin.params_mat.WellFormed ∧
      fin.params_mat.t.n_rows = T ∧ fin.params_mat.t.n_cols = mean.length ∧
      fin.params_mat.t.WellFormed ∧
      ∀ r, r < T → (fin.params_mat.t.row r).length = mean.length := by
  obtain ⟨fin, hfin, hout, hsh, _⟩ := run_history env mean Sigma Sigma_chol T rng hv
  obtain ⟨_, hr, hc, hw⟩ := hsh
  refine ⟨fin, hfin, hout, hr, hc, hw, hc, by simp [Mat.t, Mat.n_cols, hr], ?_, ?_⟩
  · intro c hcm
    simp only [Mat.t, List.mem_map, List.mem_range] at hcm
    obtain ⟨r, _, rfl⟩ := hcm
    simp [Mat.t, Mat.row, Mat.n_cols]
  · intro r _
    simp [Mat.t, Mat.row, hr]

theorem adaptive_haario_shape_witness :
    Valid tape_env [0] ⟨1, [[1]]⟩ ⟨1, [[1]]⟩ ∧
    ∃ fin, state_at tape_env [0] ⟨1, [[1]]⟩ 3 [1, 1, 1, 1, 1 / 2] 3 = .ok fin ∧
      adaptive_haario tape_env [0] ⟨1, [[1]]⟩ 3 [1, 1, 1, 1, 1 / 2]
        = .ok ⟨fin.params_mat.t⟩ ∧
      fin.params_mat.n_rows = [(0 : ℚ)].length ∧ fin.params_mat.n_cols = 3 ∧
      fin.params_mat.WellFormed ∧
      fin.params_mat.t.n_rows = 3 ∧ fin.params_mat.t.n_cols = [(0 : ℚ)].length ∧
      fin.params_mat.t.WellFormed ∧
      ∀ r, r < 3 → (fin.params_mat.t.row r).length = [(0 : ℚ)].length :=
  ⟨tape_valid_one 0,
    adaptive_haario_shape tape_env [0] ⟨1, [[1]]⟩ ⟨1, [[1]]⟩ 3 [1, 1, 1, 1, 1 / 2]
      (tape_valid_one 0)⟩

/-- C2: when the target covariance has no lower Cholesky factor the call fails, for every
mean, iteration count and random stream: the error is the one raised by the
factorisation of line 34, before the loop (a runtime error when `Sigma` is square), and
there is no result, not even an empty chain. -/
theorem adaptive_haario_chol_failure {σ : Type} (env : Env σ) (mean : Vec) (Sigma : Mat)
    (iter : Nat) (rng : σ) (h : env.chol Sigma = none) :
    ∃ e, chol_or_throw env Sigma = .error e ∧
      adaptive_haario env mean Sigma iter rng = .error e ∧
      (Sigma.n_rows = Sigma.n_cols → e = .runtime_error) ∧
      ∀ out, adaptive_haario env mean Sigma iter rng ≠ .ok out := by
  by_cases hs : Sigma.n_rows = Sigma.n_cols
  · refine ⟨.runtime_error, ?_, ?_, fun _ => rfl, ?_⟩ <;>
      simp [adaptive_haario, chol_or_throw, hs, h]
  · refine ⟨.logic_error, ?_, ?_, fun hc => absurd hc hs, ?_⟩ <;>
      simp [adaptive_haario, chol_or_throw, hs]

theorem adaptive_haario_chol_failure_witness :
    tape_env.chol ⟨1, [[0]]⟩ = none ∧
    ∃ e, chol_or_throw tape_env ⟨1, [[0]]⟩ = .error e ∧
      adaptive_haario tape_env [2] ⟨1, [[0]]⟩ 5 [1, 1] = .error e ∧
      ((⟨1, [[0]]⟩ : Mat).n_rows = (⟨1, [[0]]⟩ : Mat).n_cols → e = .runtime_error) ∧
      ∀ out, adaptive_haario tape_env [2] ⟨1, [[0]]⟩ 5 [1, 1] ≠ .ok out :=
  ⟨by simp [tape_env, rat_chol, chol_columns, chol_column, Mat.entry],
    adaptive_haario_chol_failure tape_env [2] ⟨1, [[0]]⟩ 5 [1, 1]
      (by simp [tape_env, rat_chol, chol_columns, chol_column, Mat.entry])⟩

/-- C3 (as amended): in a valid run, when the factorisation of the proposal covariance
`S` of iteration `i` fails, the iteration makes no proposal or acceptance draw and leaves
the state unchanged, row `i` of the output is the previous state (`mean / 3` for `i = 0`,
row `i - 1` otherwise), and the run returns normally.  In particular, for a
factorisation that fails when a diagonal entry is not positive: if `i ≥ 2n` and the
policy draw selects the adapted proposal, then `S` is the adapted proposal of the rows
before `i`, and when `S` as computed has a diagonal entry that is not positive the
factorisation fails and row `i` is row `i - 1`. -/
theorem failed_factorisation_carries_state {σ : Type} (env : Env σ) (mean : Vec)
    (Sigma Sigma_chol : Mat) (T : Nat) (rng : σ) (i : Nat)
    (hv : Valid env mean Sigma Sigma_chol) (hi : i < T) :
    ∃ out st st1 S r1, adaptive_haario env mean Sigma T rng = .ok out ∧
      state_at env mean Sigma_chol T rng i = .ok st ∧
      state_at env mean Sigma_chol T rng (i + 1) = .ok st1 ∧
      select_proposal env mean.length i st = .ok (S, r1) ∧
      (env.chol S = none →
        st1.params = st.params ∧ st1.rng = r1 ∧
        out.params.row i = (if i = 0 then vec_sdiv mean 3 else out.params.row (i - 1))) ∧
      (CholDiagPos env mean.length → 2 * mean.length ≤ i →
        (env.runif st.rng).1 < 95 / 100 →
        S = adapted_proposal mean.length ⟨mean.length, (List.range i).map out.params.row⟩ ∧
        ((∃ j, j < mean.length ∧ S.entry j j ≤ 0) →
          env.chol S = none ∧ out.params.row i = out.params.row (i - 1))) := by
  obtain ⟨fin, hfin, hout, hsh, hpre⟩ := run_history env mean Sigma Sigma_chol T rng hv
  obtain ⟨st, hst, hshst, htake⟩ := hpre i (by omega)
  obtain ⟨st1, hst1, _, _⟩ := hpre (i + 1) (by omega)
  have hit : iteration env mean Sigma_chol mean.length i st = .ok st1 := by
    rw [← state_at_succ env mean Sigma_chol T rng i st hst]
    exact hst1
  obtain ⟨S, r1, hsel, hpa⟩ := iteration_result env mean Sigma_chol _ i st st1 hit
  have hrow : fin.params_mat.t.row i = st1.params :=
    output_row env mean Sigma_chol T rng i hi fin st1 hsh hfin hst1
  have hn := hv.1
  have part1 : env.chol S = none →
      st1.params = st.params ∧ st1.rng = r1 ∧
      fin.params_mat.t.row i
        = (if i = 0 then vec_sdiv mean 3 else fin.params_mat.t.row (i - 1)) := by
    intro hnone
    rw [hnone] at hpa
    simp only [propose_accept, Except.ok.injEq, Prod.mk.injEq] at hpa
    refine ⟨hpa.1.symm, hpa.2.symm, ?_⟩
    rw [hrow, ← hpa.1]
    by_cases h0 : i = 0
    · subst h0
      rw [if_pos rfl]
      simp only [state_at, iterations, Except.ok.injEq] at hst
      rw [← hst]
      rfl
    · rw [if_neg h0]
      obtain ⟨k, rfl⟩ : ∃ k, i = k + 1 := ⟨i - 1, by omega⟩
      exact (output_row env mean Sigma_chol T rng k (by omega) fin st hsh hfin hst).symm
  refine ⟨_, st, st1, S, r1, hout, hst, hst1, hsel, part1, ?_⟩
  intro hdiag h2 hu
  have hsq := select_proposal_square env _ i st S r1 hsel
  have hsel2 := hsel
  rw [select_proposal_ok env _ i st (by omega) (by rw [hshst.2.2.1]; omega), if_pos h2,
    if_pos hu, htake, hshst.2.1] at hsel2
  simp only [Except.ok.injEq, Prod.mk.injEq] at hsel2
  refine ⟨hsel2.1.symm, ?_⟩
  intro hnonpos
  obtain ⟨j, hj, hle⟩ := hnonpos
  have hnone : env.chol S = none := by
    cases hch : env.chol S with
    | none => rfl
    | some L =>
      have hpos := hdiag S L (hsq.2 hshst.2.1) (by rw [← hsq.1]; exact hsq.2 hshst.2.1) hch j hj
      exact absurd hpos (not_lt.mpr hle)
  have h3 := (part1 hnone).2.2
  rw [if_neg (by omega)] at h3
  exact ⟨hnone, h3⟩

theorem failed_factorisation_carries_state_witness :
    Valid tape_env [0] ⟨1, [[1]]⟩ ⟨1, [[1]]⟩ ∧ 2 < 3 ∧ CholDiagPos tape_env 1 ∧
    ∃ out, adaptive_haario tape_env [0] ⟨1, [[1]]⟩ 3 [1, 1, 1, 1, 1 / 2] = .ok out ∧
      (adapted_proposal 1 ⟨1, (List.range 2).map out.params.row⟩).entry 0 0 ≤ 0 ∧
      out.params.row 2 = out.params.row (2 - 1) := by
  refine ⟨tape_valid_one 0, by decide, tape_chol_diag_pos 1, ?_⟩
  obtain ⟨fin, _, hout, _, hpre⟩ := run_history tape_env [0] ⟨1, [[1]]⟩ ⟨1, [[1]]⟩ 3
    [1, 1, 1, 1, 1 / 2] (tape_valid_one 0)
  obtain ⟨s2, hs2, _, htake⟩ := hpre 2 (by decide)
  rw [tape_state_two] at hs2
  cases hs2
  obtain ⟨out, st, st1, S, r1, hout2, hst, _, _, _, p2⟩ :=
    failed_factorisation_carries_state tape_env [0] ⟨1, [[1]]⟩ ⟨1, [[1]]⟩ 3
      [1, 1, 1, 1, 1 / 2] 2 (tape_valid_one 0) (by decide)
  rw [tape_state_two] at hst
  cases hst
  rw [hout] at hout2
  cases hout2
  have hzero : (adapted_proposal 1
      ⟨1, (List.range 2).map fin.params_mat.t.row⟩).entry 0 0 = 0 := by
    apply adapted_proposal_degenerate 1 _ [0] (by decide) rfl
    · simp [List.range_succ]
    · intro c hc
      rw [← htake] at hc
      simpa using hc
  obtain ⟨hS, hcarry⟩ := p2 (tape_chol_diag_pos 1) (by decide) (by norm_num [tape_env])
  refine ⟨_, hout, le_of_eq hzero, (hcarry ⟨0, by decide, ?_⟩).2⟩
  rw [hS]
  exact le_of_eq hzero

/-- An `Except` value whose `toOption` is `some a` is `ok a`. -/
theorem ok_of_toOption {ε α : Type} (r : Except ε α) (a : α)
    (h : r.toOption = some a) : r = .ok a := by
  cases r with
  | error e => cases h
  | ok b =>
    cases h
    rfl

/-- C3 (counterexample): in binary64, with mean `[1]`, covariance `[[1]]` and twelve
iterations, the first eleven iterations reject their candidates, so the columns
`0, ..., 10` are all `fl(1/3) = 0.3333333333333333` (second conjunct: the state on
entry to iteration 11).  Iteration 11 takes the adapted
branch (`11 ≥ 2n`, policy draw `0.5 < 0.95`).  The column mean is computed as
`0.33333333333333326`, so the proposal covariance is `1.92e-32 > 0`, not `0`; its
factorisation succeeds, the candidate `0.3333333333333334` is accepted, and row 11
differs from row 10. -/
theorem degenerate_history_counterexample :
    adaptive_haario_fl binary64_env [1] ⟨1, [[1]]⟩ 12
        [-1, 1, -1, 1, 31 / 32, -1, 1, 31 / 32, -1, 1, 31 / 32, -1, 1, 31 / 32, -1, 1,
          31 / 32, -1, 1, 31 / 32, -1, 1, 31 / 32, -1, 1, 31 / 32, -1, 1, 31 / 32, -1, 1,
          1 / 2, 1, 1 / 2]
      = .ok ⟨⟨12, [List.replicate 11 (6004799503160661 / 2 ^ 54)
          ++ [6004799503160663 / 2 ^ 54]]⟩⟩ ∧
    (iterations_fl binary64_env [1] ⟨1, [[1]]⟩ 1
        ⟨vec_sdiv_fl [1] 3, alloc binary64_env 1 12,
          [-1, 1, -1, 1, 31 / 32, -1, 1, 31 / 32, -1, 1, 31 / 32, -1, 1, 31 / 32, -1, 1,
            31 / 32, -1, 1, 31 / 32, -1, 1, 31 / 32, -1, 1, 31 / 32, -1, 1, 31 / 32, -1, 1,
            1 / 2, 1, 1 / 2]⟩ 11).toOption.map (fun st => (st.params, st.params_mat, st.rng))
      = some ([6004799503160661 / 2 ^ 54],
          ⟨1, List.replicate 11 [6004799503160661 / 2 ^ 54] ++ [[0]]⟩, [1 / 2, 1, 1 / 2]) ∧
    mean_fl 11 (List.replicate 11 (6004799503160661 / 2 ^ 54)) = 1501199875790165 / 2 ^ 52 ∧
    select_proposal_fl binary64_env 1 11
        ⟨[6004799503160661 / 2 ^ 54],
          ⟨1, List.replicate 11 [6004799503160661 / 2 ^ 54] ++ [[0]]⟩, [1 / 2, 1, 1 / 2]⟩
      = .ok (⟨1, [[7015302175551295 / 2 ^ 158]]⟩, [1, 1 / 2]) ∧
    binary64_env.chol ⟨1, [[7015302175551295 / 2 ^ 158]]⟩
      = some ⟨1, [[1405216003496087 / 2 ^ 103]]⟩ ∧
    (∀ j, j < 11 →
      Mat.row ⟨12, [List.replicate 11 (6004799503160661 / 2 ^ 54)
          ++ [6004799503160663 / 2 ^ 54]]⟩ j
        = Mat.row ⟨12, [List.replicate 11 (6004799503160661 / 2 ^ 54)
          ++ [6004799503160663 / 2 ^ 54]]⟩ 0) ∧
    Mat.row ⟨12, [List.replicate 11 (6004799503160661 / 2 ^ 54)
        ++ [6004799503160663 / 2 ^ 54]]⟩ 11
      ≠ Mat.row ⟨12, [List.replicate 11 (6004799503160661 / 2 ^ 54)
        ++ [6004799503160663 / 2 ^ 54]]⟩ 10 := by
  refine ⟨ok_of_toOption _ _ (by decide!), by decide!, by decide!,
    ok_of_toOption _ _ (by decide!), by decide!, by decide!, by decide!⟩

/-- C4 (as amended): for every valid input with at least one iteration, when the
acceptance draw of iteration 0 is `1.0` (so that `log(u) = 0`) and the log-density of the
candidate does not exceed that of `mean / 3`, the first recorded state is exactly
`mean / 3`. -/
theorem first_state_when_rejected {σ : Type} (env : Env σ) (mean : Vec)
    (Sigma Sigma_chol : Mat) (T : Nat) (rng : σ)
    (hv : Valid env mean Sigma Sigma_chol) (hT : 1 ≤ T)
    (hu : (env.runif (randn_vec env mean.length rng).2).1 = 1)
    (hlog : env.log 1 = ((0 : ℚ) : WithBot ℚ))
    (hden : ∀ L cand, env.chol (fixed_proposal mean.length) = some L →
      candidate (vec_sdiv mean 3) L (randn_vec env mean.length rng).1 = .ok cand →
      env.dmvnorm_chol cand mean Sigma_chol
        ≤ env.dmvnorm_chol (vec_sdiv mean 3) mean Sigma_chol) :
    ∃ out, adaptive_haario env mean Sigma T rng = .ok out ∧
      out.params.row 0 = vec_sdiv mean 3 := by
  obtain ⟨fin, hfin, hout, hsh, hpre⟩ := run_history env mean Sigma Sigma_chol T rng hv
  obtain ⟨st1, hst1, _, _⟩ := hpre 1 hT
  refine ⟨_, hout, ?_⟩
  simp only
  rw [output_row env mean Sigma_chol T rng 0 (by omega) fin st1 hsh hfin hst1]
  have hit : iteration env mean Sigma_chol mean.length 0 (initial_state env mean T rng)
      = .ok st1 := by
    rw [← state_at_succ env mean Sigma_chol T rng 0 _ rfl]
    exact hst1
  obtain ⟨S, r1, hsel, hpa⟩ := iteration_result env mean Sigma_chol _ 0 _ st1 hit
  have hn := hv.1
  have hsel0 : select_proposal env mean.length 0 (initial_state env mean T rng)
      = .ok (fixed_proposal mean.length, rng) := by
    simp only [select_proposal]
    rw [if_neg (by omega)]
    rfl
  rw [hsel0] at hsel
  simp only [Except.ok.injEq, Prod.mk.injEq] at hsel
  rw [← hsel.1, ← hsel.2] at hpa
  have hp : (initial_state env mean T rng).params = vec_sdiv mean 3 := rfl
  rw [hp] at hpa
  cases hch : env.chol (fixed_proposal mean.length) with
  | none =>
    rw [hch] at hpa
    simp only [propose_accept, Except.ok.injEq, Prod.mk.injEq] at hpa
    exact hpa.1.symm
  | some L =>
    rw [hch] at hpa
    simp only [propose_accept] at hpa
    cases hc : candidate (vec_sdiv mean 3) L (randn_vec env mean.length rng).1 with
    | error e =>
      rw [hc] at hpa
      cases hpa
    | ok cand =>
      rw [hc] at hpa
      simp only [hu, hlog, accept] at hpa
      have hle := hden L cand hch hc
      rw [if_neg (by
        rw [WithBot.coe_lt_coe]
        linarith)] at hpa
      simp only [Except.ok.injEq, Prod.mk.injEq] at hpa
      exact hpa.1.symm

theorem first_state_when_rejected_witness :
    Valid tape_env [0] ⟨1, [[1]]⟩ ⟨1, [[1]]⟩ ∧ 1 ≤ 1 ∧
    (tape_env.runif (randn_vec tape_env [(0 : ℚ)].length [1, 1]).2).1 = 1 ∧
    tape_env.log 1 = ((0 : ℚ) : WithBot ℚ) ∧
    ∃ out, adaptive_haario tape_env [0] ⟨1, [[1]]⟩ 1 [1, 1] = .ok out ∧
      out.params.row 0 = vec_sdiv [0] 3 :=
  ⟨tape_valid_one 0, by decide, by simp [randn_vec, tape_env],
    by simp [tape_env, rat_log],
    first_state_when_rejected tape_env [0] ⟨1, [[1]]⟩ ⟨1, [[1]]⟩ 1 [1, 1]
      (tape_valid_one 0) (by decide) (by simp [randn_vec, tape_env])
      (by simp [tape_env, rat_log])
      (by
        intro L cand hL hc
        have hL1 : L = ⟨1, [[1 / 10]]⟩ := by
          have h := tape_chol_fixed_one
          simp only [List.length_singleton] at hL
          rw [hL] at h
          exact Option.some.inj h
        subst hL1
        have hcand : cand = [1 / 10] := by
          simp [candidate, mat_vec, vec_add, Mat.n_cols, List.range_succ, randn_vec,
            tape_env, vec_sdiv] at hc
          rw [← hc]
          norm_num
        subst hcand
        simp [tape_env, log_kernel, forward_solve, Mat.entry, vec_sdiv])⟩

/-- C4 (counterexample): with mean `[3]`, covariance `[[1]]`, one iteration, the normal
draw `1` and the acceptance draw `1.0`, the candidate `1.1` has a higher density than the
start state `1 = mean / 3`, so it is accepted and the first recorded state is `1.1`. -/
theorem first_state_counterexample :
    Valid tape_env [3] ⟨1, [[1]]⟩ ⟨1, [[1]]⟩ ∧
    (tape_env.runif (randn_vec tape_env 1 [1, 1]).2).1 = 1 ∧
    adaptive_haario tape_env [3] ⟨1, [[1]]⟩ 1 [1, 1] = .ok ⟨⟨1, [[11 / 10]]⟩⟩ ∧
    Mat.row ⟨1, [[11 / 10]]⟩ 0 ≠ vec_sdiv [3] 3 := by
  refine ⟨tape_valid_one 3, by simp [randn_vec, tape_env], ?_, ?_⟩
  · rw [run_one tape_env 3 (1 / 10) ⟨1, [[1]]⟩ [1, 1] tape_chol_unit tape_chol_fixed_one]
    have hcond : tape_env.log (tape_env.runif (tape_env.randn [1, 1]).2).1
        < ((tape_env.dmvnorm_chol [3 / 3 + 1 / 10 * (tape_env.randn [1, 1]).1] [3] ⟨1, [[1]]⟩
            - tape_env.dmvnorm_chol [3 / 3] [3] ⟨1, [[1]]⟩ : ℚ) : WithBot ℚ) := by
      have hlog : tape_env.log (tape_env.runif (tape_env.randn [1, 1]).2).1
          = ((0 : ℚ) : WithBot ℚ) := by
        simp [tape_env, rat_log]
      rw [hlog, WithBot.coe_lt_coe]
      simp [tape_env, log_kernel, forward_solve, Mat.entry]
      norm_num
    rw [if_pos hcond]
    simp [tape_env]
    norm_num
  · simp [Mat.row, vec_sdiv]
    norm_num

/-- C5 (as amended): for `n = 1`, `mean = [0]`, `covariance = [[1]]`, one iteration and
the acceptance draw forced to `0.0` (with `log(0) = -∞`), for every normal draw `z` the
single recorded column is the candidate `0 + l * z`, where `[[l]]` is the Cholesky
factor of the proposal covariance; it differs from the start state `0` exactly when
`z ≠ 0`. -/
theorem accept_all_records_candidate {σ : Type} (env : Env σ) (Sigma_chol : Mat) (l : ℚ)
    (rng : σ) (h1 : env.chol ⟨1, [[1]]⟩ = some Sigma_chol)
    (h2 : env.chol (fixed_proposal 1) = some ⟨1, [[l]]⟩) (hl : l ≠ 0)
    (hlog : env.log 0 = ⊥) (hu : (env.runif (env.randn rng).2).1 = 0) :
    candidate (vec_sdiv [0] 3) ⟨1, [[l]]⟩ (randn_vec env 1 rng).1
      = .ok [0 + l * (env.randn rng).1] ∧
    adaptive_haario env [0] ⟨1, [[1]]⟩ 1 rng = .ok ⟨⟨1, [[0 + l * (env.randn rng).1]]⟩⟩ ∧
    ([0 + l * (env.randn rng).1] ≠ vec_sdiv [0] 3 ↔ (env.randn rng).1 ≠ 0) := by
  refine ⟨?_, ?_, ?_⟩
  · simp [candidate, mat_vec, vec_add, Mat.n_cols, List.range_succ, randn_vec, vec_sdiv]
  · rw [run_one env 0 l Sigma_chol rng h1 h2, hu, hlog, if_pos (WithBot.bot_lt_coe _)]
    simp
  · simp [vec_sdiv, hl]

theorem accept_all_records_candidate_witness :
    tape_env.chol ⟨1, [[1]]⟩ = some ⟨1, [[1]]⟩ ∧
    tape_env.chol (fixed_proposal 1) = some ⟨1, [[1 / 10]]⟩ ∧ (1 / 10 : ℚ) ≠ 0 ∧
    tape_env.log 0 = ⊥ ∧ (tape_env.runif (tape_env.randn [2, 0]).2).1 = 0 ∧
    candidate (vec_sdiv [0] 3) ⟨1, [[1 / 10]]⟩ (randn_vec tape_env 1 [2, 0]).1
      = .ok [0 + 1 / 10 * (tape_env.randn [2, 0]).1] ∧
    adaptive_haario tape_env [0] ⟨1, [[1]]⟩ 1 [2, 0]
      = .ok ⟨⟨1, [[0 + 1 / 10 * (tape_env.randn [2, 0]).1]]⟩⟩ ∧
    ([0 + 1 / 10 * (tape_env.randn [2, 0]).1] ≠ vec_sdiv [0] 3
      ↔ (tape_env.randn [2, 0]).1 ≠ 0) :=
  ⟨tape_chol_unit, tape_chol_fixed_one, by norm_num, by simp [tape_env, rat_log],
    by simp [tape_env],
    accept_all_records_candidate tape_env ⟨1, [[1]]⟩ (1 / 10) [2, 0] tape_chol_unit
      tape_chol_fixed_one (by norm_num) (by simp [tape_env, rat_log]) (by simp [tape_env])⟩

/-- C5 (counterexample): with the normal draw `z = 0` and the acceptance draw `0.0` the
candidate is accepted, and the recorded column is `0`, the unmodified start state. -/
theorem accept_all_counterexample :
    (tape_env.randn [0, 0]).1 = 0 ∧ (tape_env.runif (tape_env.randn [0, 0]).2).1 = 0 ∧
    tape_env.log 0 = ⊥ ∧
    adaptive_haario tape_env [0] ⟨1, [[1]]⟩ 1 [0, 0] = .ok ⟨⟨1, [[0]]⟩⟩ ∧
    Mat.row ⟨1, [[0]]⟩ 0 = vec_sdiv [0] 3 := by
  refine ⟨by simp [tape_env], by simp [tape_env], by simp [tape_env, rat_log], ?_,
    by simp [Mat.row, vec_sdiv]⟩
  rw [run_one tape_env 0 (1 / 10) ⟨1, [[1]]⟩ [0, 0] tape_chol_unit tape_chol_fixed_one]
  have hlog : tape_env.log (tape_env.runif (tape_env.randn [0, 0]).2).1 = ⊥ := by
    simp [tape_env, rat_log]
  rw [hlog, if_pos (WithBot.bot_lt_coe _)]
  simp [tape_env]

/-- C6: the chain is a function of the inputs and of the random stream, without
look-ahead: under the preconditions the runs of `T` and of `T1 ≥ T` iterations from the
same generator state both return, and they agree on the rows `0, ..., T - 1`. -/
theorem adaptive_haario_no_lookahead {σ : Type} (env : Env σ) (mean : Vec) (Sigma Sigma_chol : Mat)
    (T T1 : Nat) (rng : σ) (hv : Valid env mean Sigma Sigma_chol) (hT : T ≤ T1) :
    ∃ out out1, adaptive_haario env mean Sigma T rng = .ok out ∧
      adaptive_haario env mean Sigma T1 rng = .ok out1 ∧
      ∀ i, i < T → out.params.row i = out1.params.row i := by
  obtain ⟨fin, hfin, hout, hsh, hpre⟩ := run_history env mean Sigma Sigma_chol T rng hv
  obtain ⟨fin1, hfin1, hout1, hsh1, hpre1⟩ := run_history env mean Sigma Sigma_chol T1 rng hv
  refine ⟨_, _, hout, hout1, ?_⟩
  intro i hi
  obtain ⟨s, hs, _, _⟩ := hpre (i + 1) (by omega)
  obtain ⟨s1, hs1, _, _⟩ := hpre1 (i + 1) (by omega)
  have hag := runs_agree env mean Sigma Sigma_chol T T1 rng hv (i + 1) (by omega) (by omega)
    s s1 hs hs1
  simp only
  rw [output_row env mean Sigma_chol T rng i hi fin s hsh hfin hs,
    output_row env mean Sigma_chol T1 rng i (by omega) fin1 s1 hsh1 hfin1 hs1]
  exact hag.1

theorem adaptive_haario_no_lookahead_witness :
    Valid tape_env [0] ⟨1, [[1]]⟩ ⟨1, [[1]]⟩ ∧ 3 ≤ 4 ∧
    ∃ out out1, adaptive_haario tape_env [0] ⟨1, [[1]]⟩ 3 [1, 1, 1, 1, 1 / 2, 24 / 25, 1 / 2, 1] = .ok out ∧
      adaptive_haario tape_env [0] ⟨1, [[1]]⟩ 4 [1, 1, 1, 1, 1 / 2, 24 / 25, 1 / 2, 1] = .ok out1 ∧
      ∀ i, i < 3 → out.params.row i = out1.params.row i :=
  ⟨tape_valid_one 0, by decide,
    adaptive_haario_no_lookahead tape_env [0] ⟨1, [[1]]⟩ ⟨1, [[1]]⟩ 3 4 [1, 1, 1, 1, 1 / 2, 24 / 25, 1 / 2, 1]
      (tape_valid_one 0) (by decide)⟩

/-- C7: under the preconditions the run never fails, whatever the random stream.  Every
iteration `i < T` runs to completion and writes column `i`, which is in range; when
`i ≥ 2n` the slice `cols(0, i-1)` is in range (`2 ≤ i` and `i - 1 < T`) and is the block
of the `i` columns already written, the rows `0, ..., i - 1` of the output; and the
factorisation of the proposal covariance never raises, its failure being a value. -/
theorem adaptive_haario_never_fails {σ : Type} (env : Env σ) (mean : Vec)
    (Sigma Sigma_chol : Mat) (T : Nat) (rng : σ) (hv : Valid env mean Sigma Sigma_chol) :
    ∃ out, adaptive_haario env mean Sigma T rng = .ok out ∧
      ∀ i, i < T → ∃ st st1,
        state_at env mean Sigma_chol T rng i = .ok st ∧
        iteration env mean Sigma_chol mean.length i st = .ok st1 ∧
        state_at env mean Sigma_chol T rng (i + 1) = .ok st1 ∧
        i < st.params_mat.n_cols ∧
        st.params_mat.set_col i st1.params = .ok st1.params_mat ∧
        (2 * mean.length ≤ i → 2 ≤ i ∧ (i : Int) - 1 < (st.params_mat.n_cols : Int) ∧
          st.params_mat.cols_range 0 ((i : Int) - 1)
            = .ok ⟨mean.length, (List.range i).map out.params.row⟩) ∧
        ∀ S r1, select_proposal env mean.length i st = .ok (S, r1) →
          chol_status env S = .ok (env.chol S) := by
  obtain ⟨fin, hfin, hout, hsh, hpre⟩ := run_history env mean Sigma Sigma_chol T rng hv
  refine ⟨_, hout, ?_⟩
  intro i hi
  obtain ⟨st, hst, hshst, htake⟩ := hpre i (by omega)
  obtain ⟨st1, hst1, _, _⟩ := hpre (i + 1) (by omega)
  have hit : iteration env mean Sigma_chol mean.length i st = .ok st1 := by
    have hst0 : iterations env mean Sigma_chol mean.length (initial_state env mean T rng) i
        = .ok st := hst
    simpa only [state_at, iterations, hst0] using hst1
  obtain ⟨hw, hlt, hlen⟩ := iteration_writes env mean Sigma_chol _ i st st1 hit
  have hn := hv.1
  refine ⟨st, st1, hst, hit, hst1, hlt, ?_, ?_, ?_⟩
  · rw [hw]
    simp [Mat.set_col, Mat.n_cols, hlt, hlen]
  · intro h2
    refine ⟨by omega, by simp only [Mat.n_cols]; omega, ?_⟩
    rw [cols_range_initial _ i (by omega) (by omega), htake, hshst.2.1]
  · intro S r1 hsel
    simp [chol_status, (select_proposal_square env _ i st S r1 hsel).1]

theorem adaptive_haario_never_fails_witness :
    Valid tape_env [0] ⟨1, [[1]]⟩ ⟨1, [[1]]⟩ ∧
    ∃ out, adaptive_haario tape_env [0] ⟨1, [[1]]⟩ 4 [1, 1, 1, 1, 1 / 2, 24 / 25, 1 / 2, 1] = .ok out ∧
      ∀ i, i < 4 → ∃ st st1,
        state_at tape_env [0] ⟨1, [[1]]⟩ 4 [1, 1, 1, 1, 1 / 2, 24 / 25, 1 / 2, 1] i = .ok st ∧
        iteration tape_env [0] ⟨1, [[1]]⟩ [(0 : ℚ)].length i st = .ok st1 ∧
        state_at tape_env [0] ⟨1, [[1]]⟩ 4 [1, 1, 1, 1, 1 / 2, 24 / 25, 1 / 2, 1] (i + 1) = .ok st1 ∧
        i < st.params_mat.n_cols ∧
        st.params_mat.set_col i st1.params = .ok st1.params_mat ∧
        (2 * [(0 : ℚ)].length ≤ i → 2 ≤ i ∧ (i : Int) - 1 < (st.params_mat.n_cols : Int) ∧
          st.params_mat.cols_range 0 ((i : Int) - 1)
            = .ok ⟨[(0 : ℚ)].length, (List.range i).map out.params.row⟩) ∧
        ∀ S r1, select_proposal tape_env [(0 : ℚ)].length i st = .ok (S, r1) →
          chol_status tape_env S = .ok (tape_env.chol S) :=
  ⟨tape_valid_one 0,
    adaptive_haario_never_fails tape_env [0] ⟨1, [[1]]⟩ ⟨1, [[1]]⟩ 4
      [1, 1, 1, 1, 1 / 2, 24 / 25, 1 / 2, 1] (tape_valid_one 0)⟩

/-- C8: in an iteration `i` of a valid run whose proposal factorisation succeeds with
factor `L`, the candidate `params + L * z` exists, and with the drawn uniform `u` the
iteration ends in the candidate, recorded as row `i` of the output, when
`log_density(candidate) - log_density(params) > log(u)` (strictly), and otherwise in the
unchanged current state, recorded as row `i`. -/
theorem accept_iff_ratio_exceeds_log {σ : Type} (env : Env σ) (mean : Vec)
    (Sigma Sigma_chol : Mat) (T : Nat) (rng : σ) (i : Nat) (st : State σ) (S L : Mat) (r1 : σ)
    (hv : Valid env mean Sigma Sigma_chol) (hi : i < T)
    (hst : state_at env mean Sigma_chol T rng i = .ok st)
    (hsel : select_proposal env mean.length i st = .ok (S, r1))
    (hch : env.chol S = some L) :
    ∃ cand st1 out,
      candidate st.params L (randn_vec env mean.length r1).1 = .ok cand ∧
      state_at env mean Sigma_chol T rng (i + 1) = .ok st1 ∧
      adaptive_haario env mean Sigma T rng = .ok out ∧
      out.params.row i = st1.params ∧
      st1.rng = (env.runif (randn_vec env mean.length r1).2).2 ∧
      (env.log (env.runif (randn_vec env mean.length r1).2).1
          < ((env.dmvnorm_chol cand mean Sigma_chol
              - env.dmvnorm_chol st.params mean Sigma_chol : ℚ) : WithBot ℚ) →
        st1.params = cand) ∧
      (¬ env.log (env.runif (randn_vec env mean.length r1).2).1
          < ((env.dmvnorm_chol cand mean Sigma_chol
              - env.dmvnorm_chol st.params mean Sigma_chol : ℚ) : WithBot ℚ) →
        st1.params = st.params) := by
  obtain ⟨fin, hfin, hout, hsh, hpre⟩ := run_history env mean Sigma Sigma_chol T rng hv
  obtain ⟨st0, hst0, hshst, _⟩ := hpre i (by omega)
  rw [hst] at hst0
  cases hst0
  obtain ⟨st1, hst1, _, _⟩ := hpre (i + 1) (by omega)
  have hit : iteration env mean Sigma_chol mean.length i st = .ok st1 := by
    rw [← state_at_succ env mean Sigma_chol T rng i st hst]
    exact hst1
  obtain ⟨S0, r0, hsel0, hpa⟩ := iteration_result env mean Sigma_chol _ i st st1 hit
  rw [hsel] at hsel0
  cases hsel0
  have hsq := select_proposal_square env _ i st S r1 hsel
  obtain ⟨hLr, hLc⟩ := hv.2.2.2.2 S L (hsq.2 hshst.2.1)
    (by rw [← hsq.1]; exact hsq.2 hshst.2.1) hch
  obtain ⟨cand, hcand, _⟩ := candidate_ok st.params L (randn_vec env mean.length r1).1
    (by rw [hLc, randn_vec_length]) (by rw [hLr, hshst.1])
  refine ⟨cand, st1, _, hcand, hst1, hout,
    output_row env mean Sigma_chol T rng i hi fin st1 hsh hfin hst1, ?_⟩
  simp only [hch, propose_accept, hcand, accept] at hpa
  split at hpa
  · rename_i hlt
    simp only [Except.ok.injEq, Prod.mk.injEq] at hpa
    exact ⟨hpa.2.symm, fun _ => hpa.1.symm, fun hn => absurd hlt hn⟩
  · rename_i hlt
    simp only [Except.ok.injEq, Prod.mk.injEq] at hpa
    exact ⟨hpa.2.symm, fun h => absurd h hlt, fun _ => hpa.1.symm⟩

theorem accept_iff_ratio_exceeds_log_witness :
    Valid tape_env [3] ⟨1, [[1]]⟩ ⟨1, [[1]]⟩ ∧ 0 < 1 ∧
    state_at tape_env [3] ⟨1, [[1]]⟩ 1 [1, 1] 0 = .ok (initial_state tape_env [3] 1 [1, 1]) ∧
    select_proposal tape_env [(3 : ℚ)].length 0 (initial_state tape_env [3] 1 [1, 1])
      = .ok (fixed_proposal 1, [1, 1]) ∧
    tape_env.chol (fixed_proposal 1) = some ⟨1, [[1 / 10]]⟩ ∧
    ∃ cand st1 out,
      candidate (initial_state tape_env [3] 1 [1, 1]).params ⟨1, [[1 / 10]]⟩
        (randn_vec tape_env [(3 : ℚ)].length [1, 1]).1 = .ok cand ∧
      state_at tape_env [3] ⟨1, [[1]]⟩ 1 [1, 1] (0 + 1) = .ok st1 ∧
      adaptive_haario tape_env [3] ⟨1, [[1]]⟩ 1 [1, 1] = .ok out ∧
      out.params.row 0 = st1.params ∧
      st1.rng = (tape_env.runif (randn_vec tape_env [(3 : ℚ)].length [1, 1]).2).2 ∧
      (tape_env.log (tape_env.runif (randn_vec tape_env [(3 : ℚ)].length [1, 1]).2).1
          < ((tape_env.dmvnorm_chol cand [3] ⟨1, [[1]]⟩
              - tape_env.dmvnorm_chol (initial_state tape_env [3] 1 [1, 1]).params [3]
                  ⟨1, [[1]]⟩ : ℚ) : WithBot ℚ) →
        st1.params = cand) ∧
      (¬ tape_env.log (tape_env.runif (randn_vec tape_env [(3 : ℚ)].length [1, 1]).2).1
          < ((tape_env.dmvnorm_chol cand [3] ⟨1, [[1]]⟩
              - tape_env.dmvnorm_chol (initial_state tape_env [3] 1 [1, 1]).params [3]
                  ⟨1, [[1]]⟩ : ℚ) : WithBot ℚ) →
        st1.params = (initial_state tape_env [3] 1 [1, 1]).params) :=
  ⟨tape_valid_one 3, by decide, rfl,
    by simp [select_proposal, initial_state], tape_chol_fixed_one,
    accept_iff_ratio_exceeds_log tape_env [3] ⟨1, [[1]]⟩ ⟨1, [[1]]⟩ 1 [1, 1] 0
      (initial_state tape_env [3] 1 [1, 1]) (fixed_proposal 1) ⟨1, [[1 / 10]]⟩ [1, 1]
      (tape_valid_one 3) (by decide) rfl (by simp [select_proposal, initial_state])
      tape_chol_fixed_one⟩

/-- C9: in a valid run, for every iteration `i ≥ 2n` the proposal covariance is
`(2.38² / n)` times the sample covariance of the block whose columns are the rows
`0, ..., i - 1` of the output (the states recorded by the iterations before `i`, and
nothing else) when the policy draw is `< 0.95`, and `(0.1² / n) · I_n` when it is not. -/
theorem adapted_proposal_from_history {σ : Type} (env : Env σ) (mean : Vec)
    (Sigma Sigma_chol : Mat) (T : Nat) (rng : σ) (i : Nat)
    (hv : Valid env mean Sigma Sigma_chol) (hi : i < T) (h2 : 2 * mean.length ≤ i) :
    ∃ out st, adaptive_haario env mean Sigma T rng = .ok out ∧
      state_at env mean Sigma_chol T rng i = .ok st ∧
      select_proposal env mean.length i st = .ok
        (if (env.runif st.rng).1 < 95 / 100 then
          Mat.smul ((238 / 100 : ℚ) ^ 2 / (mean.length : ℚ))
            (cov (Mat.t ⟨mean.length, (List.range i).map out.params.row⟩))
         else Mat.smul ((1 / 10 : ℚ) ^ 2 / (mean.length : ℚ)) (eye mean.length),
         (env.runif st.rng).2) := by
  obtain ⟨fin, hfin, hout, hsh, hpre⟩ := run_history env mean Sigma Sigma_chol T rng hv
  obtain ⟨st, hst, hshst, htake⟩ := hpre i (by omega)
  refine ⟨_, st, hout, hst, ?_⟩
  have hn := hv.1
  rw [select_proposal_ok env _ i st (by omega) (by rw [hshst.2.2.1]; omega), if_pos h2,
    htake, hshst.2.1, adapted_proposal_eq_smul, fixed_proposal_eq_smul]

theorem adapted_proposal_from_history_witness :
    Valid tape_env [0] ⟨1, [[1]]⟩ ⟨1, [[1]]⟩ ∧ 2 < 4 ∧ 2 * [(0 : ℚ)].length ≤ 2 ∧
    ∃ out st, adaptive_haario tape_env [0] ⟨1, [[1]]⟩ 4 [1, 1, 1, 1, 1 / 2, 24 / 25, 1 / 2, 1] = .ok out ∧
      state_at tape_env [0] ⟨1, [[1]]⟩ 4 [1, 1, 1, 1, 1 / 2, 24 / 25, 1 / 2, 1] 2 = .ok st ∧
      select_proposal tape_env [(0 : ℚ)].length 2 st = .ok
        (if (tape_env.runif st.rng).1 < 95 / 100 then
          Mat.smul ((238 / 100 : ℚ) ^ 2 / ([(0 : ℚ)].length : ℚ))
            (cov (Mat.t ⟨[(0 : ℚ)].length, (List.range 2).map out.params.row⟩))
         else Mat.smul ((1 / 10 : ℚ) ^ 2 / ([(0 : ℚ)].length : ℚ)) (eye [(0 : ℚ)].length),
         (tape_env.runif st.rng).2) :=
  ⟨tape_valid_one 0, by decide, by decide,
    adapted_proposal_from_history tape_env [0] ⟨1, [[1]]⟩ ⟨1, [[1]]⟩ 4
      [1, 1, 1, 1, 1 / 2, 24 / 25, 1 / 2, 1] 2 (tape_valid_one 0) (by decide) (by decide)⟩

/-- C10: for every iteration `i < 2n` the proposal covariance is `(0.1² / n) · I_n`
whatever the state (history and generator) on entry, and the generator is not advanced
by the selection: no policy draw is consulted.  This matrix is symmetric and positive definite;
a factorisation that succeeds on such matrices succeeds on it, and the
iteration then forms a candidate from `n` normal draws, consumes the acceptance draw
and ends in the candidate or in the current state. -/
theorem fixed_proposal_before_window {σ : Type} (env : Env σ) (n i : Nat) (st : State σ)
    (hi : i < 2 * n) :
    select_proposal env n i st = .ok (fixed_proposal n, st.rng) ∧
    fixed_proposal n = Mat.smul ((1 / 10 : ℚ) ^ 2 / (n : ℚ)) (eye n) ∧
    (fixed_proposal n).IsPosDef n ∧
    ∀ (mean : Vec) (Sigma_chol : Mat) (T : Nat),
      CholComplete env n → CholShape env n → Shaped n T st → i < T →
      ∃ L cand st1, env.chol (fixed_proposal n) = some L ∧
        candidate st.params L (randn_vec env n st.rng).1 = .ok cand ∧
        iteration env mean Sigma_chol n i st = .ok st1 ∧
        st1.rng = (env.runif (randn_vec env n st.rng).2).2 ∧
        st1.params = (if env.log (env.runif (randn_vec env n st.rng).2).1
            < ((env.dmvnorm_chol cand mean Sigma_chol
                - env.dmvnorm_chol st.params mean Sigma_chol : ℚ) : WithBot ℚ)
          then cand else st.params) := by
  have hn : 1 ≤ n := by omega
  have hsel : select_proposal env n i st = .ok (fixed_proposal n, st.rng) := by
    simp [select_proposal, Nat.not_le.mpr hi]
  have hpd := fixed_proposal_pos_def n hn
  refine ⟨hsel, fixed_proposal_eq_smul n, hpd, ?_⟩
  intro mean Sigma_chol T hcomp hshape hst hiT
  obtain ⟨L, hL⟩ := hcomp _ hpd
  obtain ⟨hLr, hLc⟩ := hshape _ L hpd.1 hpd.2.1 hL
  obtain ⟨cand, hcand, hclen⟩ := candidate_ok st.params L (randn_vec env n st.rng).1
    (by rw [hLc, randn_vec_length]) (by rw [hLr, hst.1])
  have hit := iteration_unfold env mean Sigma_chol n i st _ _ hsel
  simp only [hL, propose_accept, hcand, accept] at hit
  by_cases hc : env.log (env.runif (randn_vec env n st.rng).2).1
      < ((env.dmvnorm_chol cand mean Sigma_chol
          - env.dmvnorm_chol st.params mean Sigma_chol : ℚ) : WithBot ℚ)
  · rw [if_pos hc] at hit
    have hset : st.params_mat.set_col i cand
        = .ok ⟨st.params_mat.n_rows, st.params_mat.cols.set i cand⟩ := by
      simp [Mat.set_col, Mat.n_cols, hst.2.2.1, hiT, hclen, hst.1, hst.2.1]
    simp only [hset] at hit
    exact ⟨L, cand, _, hL, hcand, hit, rfl, (if_pos hc).symm⟩
  · rw [if_neg hc] at hit
    have hset : st.params_mat.set_col i st.params
        = .ok ⟨st.params_mat.n_rows, st.params_mat.cols.set i st.params⟩ := by
      simp [Mat.set_col, Mat.n_cols, hst.2.2.1, hiT, hst.1, hst.2.1]
    simp only [hset] at hit
    exact ⟨L, cand, _, hL, hcand, hit, rfl, (if_neg hc).symm⟩

theorem fixed_proposal_before_window_witness :
    0 < 2 * 1 ∧ CholComplete tape_env 1 ∧ CholShape tape_env 1 ∧
    Shaped 1 1 (initial_state tape_env [0] 1 [1, 1]) ∧
    (select_proposal tape_env 1 0 (initial_state tape_env [0] 1 [1, 1])
        = .ok (fixed_proposal 1, (initial_state tape_env [0] 1 [1, 1]).rng) ∧
      fixed_proposal 1 = Mat.smul ((1 / 10 : ℚ) ^ 2 / ((1 : Nat) : ℚ)) (eye 1) ∧
      (fixed_proposal 1).IsPosDef 1 ∧
      ∀ (mean : Vec) (Sigma_chol : Mat) (T : Nat),
        CholComplete tape_env 1 → CholShape tape_env 1 →
        Shaped 1 T (initial_state tape_env [0] 1 [1, 1]) → 0 < T →
        ∃ L cand st1, tape_env.chol (fixed_proposal 1) = some L ∧
          candidate (initial_state tape_env [0] 1 [1, 1]).params L
            (randn_vec tape_env 1 (initial_state tape_env [0] 1 [1, 1]).rng).1 = .ok cand ∧
          iteration tape_env mean Sigma_chol 1 0 (initial_state tape_env [0] 1 [1, 1])
            = .ok st1 ∧
          st1.rng = (tape_env.runif
            (randn_vec tape_env 1 (initial_state tape_env [0] 1 [1, 1]).rng).2).2 ∧
          st1.params = (if tape_env.log (tape_env.runif
              (randn_vec tape_env 1 (initial_state tape_env [0] 1 [1, 1]).rng).2).1
              < ((tape_env.dmvnorm_chol cand mean Sigma_chol
                  - tape_env.dmvnorm_chol (initial_state tape_env [0] 1 [1, 1]).params
                      mean Sigma_chol : ℚ) : WithBot ℚ)
            then cand else (initial_state tape_env [0] 1 [1, 1]).params)) :=
  ⟨by decide, tape_chol_complete_one, tape_chol_shape 1,
    initial_state_shaped tape_env [0] 1 [1, 1],
    fixed_proposal_before_window tape_env 1 0 (initial_state tape_env [0] 1 [1, 1])
      (by decide)⟩

end AdaptiveMcmc
